import Mathlib

set_option maxRecDepth 100000

/-!
Verification of a small Thompson-construction regular-expression engine
(`regex.py`).  The engine supports alphanumeric literal atoms, the wildcard
atom `.`, and the postfix repetition operators `*` (zero or more) and `+`
(one or more) applied to the immediately preceding atom.

Embedding conventions:
* Python `State` objects are identified by their allocation index (`Nat`);
  the collective transition tables of all states form one total function
  `delta : Nat → Option Char → List Nat`, where the key `none` plays the
  role of Python's `None` epsilon key and `some c` the role of a character
  key.  A state that was never given a transition on a key maps to `[]`,
  matching the behaviour of the Python dict (`key in transitions` is false
  exactly when the list of destinations would be empty).
* The mutable heap of states built by `_build_nfa` is threaded explicitly
  through the fragment constructors as an `NFABuilder` value.
* The two `ValueError`s raised by `_build_nfa` (with distinct messages) are
  the two constructors of `RegexError`.
* Python sets of states become `Finset Nat`.  `epsilon_closure`'s worklist
  loop terminates because the visited set grows inside a finite automaton;
  here it is rendered as `state_count` iterations of the one-step epsilon
  expansion, which provably reaches the same fixed point (the set of
  epsilon-reachable states) on every automaton the compiler produces.
-/

/-- Error raised by `_build_nfa`.  The Python code raises `ValueError` with
two distinct messages; each message is one constructor. -/
inductive RegexError where
  /-- russian-doc message "Неприпустимий патерн: початок з ..." — a repetition
  operator appeared where an atom was expected. -/
  | malformedPattern (c : Char) : RegexError
  /-- message "Непідтримуваний символ у патерні: ..." — a pattern character is
  neither alphanumeric, nor the wildcard, nor an operator. -/
  | unsupportedSymbol (c : Char) : RegexError
deriving DecidableEq, Repr

/-- Arena of `State` objects created so far: `n` states exist (ids
`0, …, n-1`) and `delta s k` is the destination list of state `s` on
transition key `k` (`none` = epsilon). -/
structure NFABuilder where
  n : Nat
  delta : Nat → Option Char → List Nat

/-- Python `State()` constructor: allocate a fresh state with an empty
transition table. -/
def new_state (b : NFABuilder) : Nat × NFABuilder :=
  (b.n, { b with n := b.n + 1 })

/-- Python `State.add_transition(symbol, state)`: append `t` to the
destination list of `s` on key `k`. -/
def add_transition (b : NFABuilder) (s : Nat) (k : Option Char) (t : Nat) :
    NFABuilder :=
  { b with
    delta := fun s' k' =>
      if s' = s ∧ k' = k then b.delta s' k' ++ [t] else b.delta s' k' }

/-- Python `NFAFragment`: a sub-automaton entered at `start` and left at
`endS` (the source field is called `end`, a Lean keyword). -/
structure NFAFragment where
  start : Nat
  endS : Nat
deriving DecidableEq, Repr

/-- Python `build_fragment_for_symbol(symbol)`: two fresh states and one
transition `start --symbol--> end`. -/
def build_fragment_for_symbol (symbol : Char) (b : NFABuilder) :
    NFAFragment × NFABuilder :=
  let (start, b) := new_state b
  let (endS, b) := new_state b
  let b := add_transition b start (some symbol) endS
  (⟨start, endS⟩, b)

/-- Python `apply_star_to_fragment(fragment)`: fresh `new_start`, `new_end`
and four epsilon transitions. -/
def apply_star_to_fragment (fragment : NFAFragment) (b : NFABuilder) :
    NFAFragment × NFABuilder :=
  let (new_start, b) := new_state b
  let (new_end, b) := new_state b
  let b := add_transition b new_start none fragment.start
  let b := add_transition b new_start none new_end
  let b := add_transition b fragment.endS none fragment.start
  let b := add_transition b fragment.endS none new_end
  (⟨new_start, new_end⟩, b)

/-- Python `apply_plus_to_fragment(fragment)`: fresh `new_end`, the old
start is reused, two epsilon transitions from the old end. -/
def apply_plus_to_fragment (fragment : NFAFragment) (b : NFABuilder) :
    NFAFragment × NFABuilder :=
  let (new_end, b) := new_state b
  let b := add_transition b fragment.endS none fragment.start
  let b := add_transition b fragment.endS none new_end
  (⟨fragment.start, new_end⟩, b)

/-- Compiled automaton (`RegexFSM` after `__init__` ran): the state arena,
the designated start state, and the `is_final` flag of every state. -/
structure RegexFSM where
  n : Nat
  delta : Nat → Option Char → List Nat
  start_state : Nat
  is_final : Nat → Bool

/-- Python `str.isalnum()` restricted to ASCII, as used to classify atoms. -/
def isAtomChar (c : Char) : Bool :=
  c.isAlphanum || c == '.'

/-- Concatenation step of `_build_nfa`: register a freshly built `fragment`
against the accumulated `(base_start, base_end)` pair (`acc`), adding the
epsilon transition `base_end → fragment.start` when a base exists. -/
def attach_fragment (b : NFABuilder) (acc : Option NFAFragment)
    (fragment : NFAFragment) : NFABuilder × Option NFAFragment :=
  match acc with
  | none => (b, some fragment)
  | some base =>
    (add_transition b base.endS none fragment.start,
     some ⟨base.start, fragment.endS⟩)

/-- One iteration of the `_build_nfa` loop after the optional repetition
operator `rep` following atom `c` has been read: build the atom fragment,
wrap it for `*` or `+`, and concatenate it onto the accumulator. -/
def consume_atom (b : NFABuilder) (acc : Option NFAFragment) (c : Char)
    (rep : Option Char) : NFABuilder × Option NFAFragment :=
  let (fragment, b) := build_fragment_for_symbol c b
  let (fragment, b) :=
    if rep = some '*' then apply_star_to_fragment fragment b
    else if rep = some '+' then apply_plus_to_fragment fragment b
    else (fragment, b)
  attach_fragment b acc fragment

/-- Loop body of `_build_nfa`: scan the remaining pattern, building and
concatenating one fragment per atom (with an optional one-character
lookahead for a repetition operator).  `acc` is the accumulated
`(base_start, base_end)` pair, `none` before the first fragment. -/
def build_nfa_loop (b : NFABuilder) (acc : Option NFAFragment) :
    List Char → Except RegexError (NFABuilder × Option NFAFragment)
  | [] => .ok (b, acc)
  | c :: rest =>
    if c = '*' ∨ c = '+' then
      .error (.malformedPattern c)
    else if isAtomChar c then
      match rest with
      | r :: rest' =>
        if r = '*' ∨ r = '+' then
          let (b, acc) := consume_atom b acc c (some r)
          build_nfa_loop b acc rest'
        else
          let (b, acc) := consume_atom b acc c none
          build_nfa_loop b acc (r :: rest')
      | [] =>
        let (b, acc) := consume_atom b acc c none
        build_nfa_loop b acc []
    else
      .error (.unsupportedSymbol c)

/-- Python `RegexFSM._build_nfa(pattern)`: run the scan loop from an empty
arena; afterwards mark the accumulated end state final (allocating a lone
state that is both start and final when the pattern was empty). -/
def build_nfa (pattern : List Char) : Except RegexError RegexFSM :=
  match build_nfa_loop ⟨0, fun _ _ => []⟩ none pattern with
  | .error e => .error e
  | .ok (b, none) =>
    let (s, b) := new_state b
    .ok ⟨b.n, b.delta, s, fun q => q == s⟩
  | .ok (b, some base) =>
    .ok ⟨b.n, b.delta, base.start, fun q => q == base.endS⟩

/-- Single epsilon-expansion step: keep `S` and add every epsilon successor
of a member of `S`. -/
def epsStep (a : RegexFSM) (S : Finset Nat) : Finset Nat :=
  S ∪ S.biUnion (fun s => (a.delta s none).toFinset)

/-- Python `RegexFSM.epsilon_closure(states)`: the worklist loop saturates
the visited set under epsilon successors; inside an `n`-state automaton the
fixed point is reached after at most `n` expansion steps. -/
def epsilon_closure (a : RegexFSM) (states : Finset Nat) : Finset Nat :=
  (epsStep a)^[a.n] states

/-- Inner loop of `check_string` for one input character: from every active
state, follow the transitions keyed by the character itself and those keyed
by the wildcard `'.'` (both contribute; an absent key contributes `[]`). -/
def stepChar (a : RegexFSM) (c : Char) (current : Finset Nat) : Finset Nat :=
  current.biUnion (fun s => (a.delta s (some c) ++ a.delta s (some '.')).toFinset)

/-- Python `RegexFSM.check_string(input_str)`: start from the epsilon
closure of the start state, consume the input character by character, and
accept when some active state is final. -/
def check_string (a : RegexFSM) (input_str : List Char) : Bool :=
  let current :=
    input_str.foldl (fun cur c => epsilon_closure a (stepChar a c cur))
      (epsilon_closure a ({a.start_state} : Finset Nat))
  decide (∃ q ∈ current, a.is_final q = true)

/-- Recover the automaton from a successful compilation (used to
instantiate theorems at concrete patterns); patterns that fail to compile
give a dummy one-state automaton. -/
def fsm_of (pattern : List Char) : RegexFSM :=
  match build_nfa pattern with
  | .ok a => a
  | .error _ => ⟨1, fun _ _ => [], 0, fun _ => false⟩

/-- Matching loop of `check_string` with the automaton threaded through
explicitly, the way the Python interpreter threads the (potentially
mutable) state graph through the loop: every iteration reads the
transition tables from the threaded automaton and passes the graph on
unchanged. -/
def check_string_steps (a : RegexFSM) (current : Finset Nat) :
    List Char → Finset Nat × RegexFSM
  | [] => (current, a)
  | c :: rest =>
    check_string_steps a (epsilon_closure a (stepChar a c current)) rest

/-- run `check_string` in the state-threaded rendering: the returned
automaton is the state graph as it is after the call. -/
def check_string_run (a : RegexFSM) (input_str : List Char) :
    Bool × RegexFSM :=
  let p := check_string_steps a
    (epsilon_closure a ({a.start_state} : Finset Nat)) input_str
  (decide (∃ q ∈ p.1, p.2.is_final q = true), p.2)

/-- Classification of repetition operators, written from the spec wording
for the malformed-pattern condition. -/
def opChar (c : Char) : Bool :=
  c == '*' || c == '+'

/-- Position `i` of `pattern` violates the spec's compilability conditions:
an operator stands at position 0 or directly after a non-atom, or a
character is neither an atom nor an operator. -/
def violationAt (pattern : List Char) (i : Nat) : Bool :=
  let c := pattern.getD i ' '
  if opChar c then decide (i = 0) || !isAtomChar (pattern.getD (i - 1) ' ')
  else !isAtomChar c

/-- Leftmost violating position of a pattern, if any. -/
def firstViolation (pattern : List Char) : Option Nat :=
  (List.range pattern.length).find? (violationAt pattern)

/-- Error produced by the `_build_nfa` scan, computed without building any
states (the scan's control flow only looks at the characters). -/
def scanErr : List Char → Option RegexError
  | [] => none
  | c :: rest =>
    if c = '*' ∨ c = '+' then some (.malformedPattern c)
    else if isAtomChar c then
      match rest with
      | r :: rest' =>
        if r = '*' ∨ r = '+' then scanErr rest' else scanErr (r :: rest')
      | [] => none
    else some (.unsupportedSymbol c)

/-- Shape of the arena's transition table after compiling the atom-only
pattern `q`: atom `i` is the transition `2i --q(i)--> 2i+1`, consecutive
atoms are chained by the epsilon edges `2i+1 --eps--> 2i+2`, and no other
transition exists. -/
def ChainDelta (q : List Char) (delta : Nat → Option Char → List Nat) :
    Prop :=
  ∀ s k t, t ∈ delta s k ↔
    ((∃ i, i < q.length ∧ s = 2 * i ∧ k = some (q.getD i ' ') ∧
        t = 2 * i + 1) ∨
      (∃ i, i + 1 < q.length ∧ s = 2 * i + 1 ∧ k = none ∧ t = 2 * i + 2))

/-- Set of active states of the chain automaton for an atom-only pattern of
length `k` after `i` characters have been matched: `{0}` at the start, the
pair `{2i-1, 2i}` strictly inside the chain, and the lone final state
`{2k-1}` at the end. -/
def chainSet (k i : Nat) : Finset Nat :=
  if i = 0 then {0} else if i < k then {2 * i - 1, 2 * i} else {2 * k - 1}

/-!  Basic properties of the epsilon-expansion step and its iteration. -/

theorem mem_epsStep {a : RegexFSM} {S : Finset Nat} {q : Nat} :
    q ∈ epsStep a S ↔ q ∈ S ∨ ∃ s ∈ S, q ∈ a.delta s none := by
  simp [epsStep]

theorem epsStep_subset (a : RegexFSM) (S : Finset Nat) : S ⊆ epsStep a S :=
  Finset.subset_union_left

theorem epsStep_mono {a : RegexFSM} {S T : Finset Nat} (h : S ⊆ T) :
    epsStep a S ⊆ epsStep a T := by
  intro q hq
  rcases mem_epsStep.mp hq with hq | ⟨s, hs, hd⟩
  · exact mem_epsStep.mpr (Or.inl (h hq))
  · exact mem_epsStep.mpr (Or.inr ⟨s, h hs, hd⟩)

theorem iterate_epsStep_subset_succ (a : RegexFSM) (S : Finset Nat) (k : Nat) :
    (epsStep a)^[k] S ⊆ (epsStep a)^[k + 1] S := by
  rw [Function.iterate_succ_apply']
  exact epsStep_subset a _

theorem iterate_epsStep_subset (a : RegexFSM) (S : Finset Nat) {k m : Nat}
    (h : k ≤ m) : (epsStep a)^[k] S ⊆ (epsStep a)^[m] S := by
  induction m with
  | zero => simp_all
  | succ m ih =>
    rcases Nat.lt_or_ge k (m + 1) with h' | h'
    · exact (ih (Nat.lt_succ_iff.mp h')).trans (iterate_epsStep_subset_succ a S m)
    · have : k = m + 1 := Nat.le_antisymm h h'
      subst this
      exact Finset.Subset.refl _

theorem subset_epsilon_closure (a : RegexFSM) (S : Finset Nat) :
    S ⊆ epsilon_closure a S :=
  iterate_epsStep_subset a S (Nat.zero_le a.n)

theorem epsilon_closure_eq_of_fixed {a : RegexFSM} {S : Finset Nat}
    (h : epsStep a S = S) : epsilon_closure a S = S :=
  Function.iterate_fixed h a.n

theorem epsilon_closure_subset_of_closed {a : RegexFSM} {S T : Finset Nat}
    (hST : S ⊆ T) (hT : epsStep a T ⊆ T) : epsilon_closure a S ⊆ T := by
  unfold epsilon_closure
  induction a.n with
  | zero => simpa using hST
  | succ k ih =>
    rw [Function.iterate_succ_apply']
    exact (epsStep_mono ih).trans hT

theorem epsilon_closure_eq_step {a : RegexFSM} {S : Finset Nat}
    (hn : 1 ≤ a.n) (h : epsStep a (epsStep a S) = epsStep a S) :
    epsilon_closure a S = epsStep a S := by
  unfold epsilon_closure
  obtain ⟨m, hm⟩ : ∃ m, a.n = m + 1 := ⟨a.n - 1, by omega⟩
  rw [hm, Function.iterate_succ_apply]
  exact Function.iterate_fixed h m

theorem epsStep_empty (a : RegexFSM) : epsStep a (∅ : Finset Nat) = ∅ := by
  simp [epsStep]

theorem epsilon_closure_empty (a : RegexFSM) :
    epsilon_closure a (∅ : Finset Nat) = ∅ :=
  epsilon_closure_eq_of_fixed (epsStep_empty a)

theorem mem_stepChar {a : RegexFSM} {c : Char} {S : Finset Nat} {q : Nat} :
    q ∈ stepChar a c S ↔
      ∃ s ∈ S, q ∈ a.delta s (some c) ∨ q ∈ a.delta s (some '.') := by
  simp [stepChar, or_and_right, exists_or]

theorem stepChar_empty (a : RegexFSM) (c : Char) :
    stepChar a c (∅ : Finset Nat) = ∅ := by
  simp [stepChar]

/-!  Reachability characterisation of `epsilon_closure`. -/

/-- One epsilon edge of the automaton graph: `v` is listed among the
epsilon destinations of `u`. -/
def EpsEdge (a : RegexFSM) (u v : Nat) : Prop :=
  v ∈ a.delta u none

/-- Well-formedness of an automaton arena: every transition destination is
an allocated state.  Every automaton produced by `build_nfa` satisfies
this. -/
def TargetsBelow (a : RegexFSM) : Prop :=
  ∀ s k t, t ∈ a.delta s k → t < a.n

theorem iterate_epsStep_reach {a : RegexFSM} {S : Finset Nat} {k : Nat}
    {q : Nat} (hq : q ∈ (epsStep a)^[k] S) :
    ∃ s ∈ S, Relation.ReflTransGen (EpsEdge a) s q := by
  induction k generalizing q with
  | zero => exact ⟨q, by simpa using hq, Relation.ReflTransGen.refl⟩
  | succ k ih =>
    rw [Function.iterate_succ_apply'] at hq
    rcases mem_epsStep.mp hq with hq | ⟨s, hs, hd⟩
    · exact ih hq
    · obtain ⟨s₀, hs₀, hpath⟩ := ih hs
      exact ⟨s₀, hs₀, hpath.tail hd⟩

theorem reach_mem_of_closed {a : RegexFSM} {S T : Finset Nat} (hST : S ⊆ T)
    (hT : ∀ u ∈ T, ∀ v, EpsEdge a u v → v ∈ T) {s q : Nat} (hs : s ∈ S)
    (h : Relation.ReflTransGen (EpsEdge a) s q) : q ∈ T := by
  induction h with
  | refl => exact hST hs
  | tail _ e ih => exact hT _ ih _ e

theorem iterate_epsStep_bounded {a : RegexFSM} {S : Finset Nat}
    (hwf : TargetsBelow a) (hS : S ⊆ Finset.range a.n) (k : Nat) :
    (epsStep a)^[k] S ⊆ Finset.range a.n := by
  induction k with
  | zero => simpa using hS
  | succ k ih =>
    rw [Function.iterate_succ_apply']
    intro q hq
    rcases mem_epsStep.mp hq with hq | ⟨s, _, hd⟩
    · exact ih hq
    · exact Finset.mem_range.mpr (hwf s none q hd)

theorem iterate_epsStep_card_growth {a : RegexFSM} {S : Finset Nat} (k : Nat)
    (h : ∀ j < k, (epsStep a)^[j + 1] S ≠ (epsStep a)^[j] S) :
    S.card + k ≤ ((epsStep a)^[k] S).card := by
  induction k with
  | zero => simp
  | succ k ih =>
    have h1 : S.card + k ≤ ((epsStep a)^[k] S).card :=
      ih (fun j hj => h j (Nat.lt_succ_of_lt hj))
    have h2 : ((epsStep a)^[k] S).card < ((epsStep a)^[k + 1] S).card :=
      Finset.card_lt_card
        (lt_of_le_of_ne (iterate_epsStep_subset_succ a S k)
          (fun he => h k (Nat.lt_succ_self k) he.symm))
    omega

theorem epsStep_epsilon_closure {a : RegexFSM} {S : Finset Nat}
    (hwf : TargetsBelow a) (hS : S ⊆ Finset.range a.n) :
    epsStep a (epsilon_closure a S) = epsilon_closure a S := by
  have hfix : ∃ j < a.n + 1, (epsStep a)^[j + 1] S = (epsStep a)^[j] S := by
    by_contra hno
    push_neg at hno
    have hgrow : S.card + (a.n + 1) ≤ ((epsStep a)^[a.n + 1] S).card :=
      iterate_epsStep_card_growth (a.n + 1) hno
    have hb : ((epsStep a)^[a.n + 1] S).card ≤ a.n := by
      have := Finset.card_le_card (iterate_epsStep_bounded hwf hS (a.n + 1))
      simpa using this
    omega
  obtain ⟨j, hj, hfix⟩ := hfix
  have hfix' : epsStep a ((epsStep a)^[j] S) = (epsStep a)^[j] S := by
    rw [Function.iterate_succ_apply'] at hfix
    exact hfix
  have h1 : epsilon_closure a S = (epsStep a)^[j] S := by
    unfold epsilon_closure
    obtain ⟨m, hm⟩ : ∃ m, a.n = j + m := ⟨a.n - j, by omega⟩
    rw [hm, Nat.add_comm j m, Function.iterate_add_apply]
    exact Function.iterate_fixed hfix' m
  rw [h1]
  exact hfix'

theorem mem_epsilon_closure_iff_reach {a : RegexFSM} {S : Finset Nat}
    (hwf : TargetsBelow a) (hS : S ⊆ Finset.range a.n) (q : Nat) :
    q ∈ epsilon_closure a S ↔
      ∃ s ∈ S, Relation.ReflTransGen (EpsEdge a) s q := by
  constructor
  · exact fun h => iterate_epsStep_reach h
  · rintro ⟨s, hs, hpath⟩
    refine reach_mem_of_closed (subset_epsilon_closure a S) ?_ hs hpath
    intro u hu v he
    rw [← epsStep_epsilon_closure hwf hS]
    exact mem_epsStep.mpr (Or.inr ⟨u, hu, he⟩)

theorem epsilon_closure_idem {a : RegexFSM} {S : Finset Nat}
    (hwf : TargetsBelow a) (hS : S ⊆ Finset.range a.n) :
    epsilon_closure a (epsilon_closure a S) = epsilon_closure a S :=
  epsilon_closure_eq_of_fixed (epsStep_epsilon_closure hwf hS)

/-!  The compiler only creates transitions into allocated states. -/

/-- Arena analogue of `TargetsBelow` during construction. -/
def BuilderBelow (b : NFABuilder) : Prop :=
  ∀ s k t, t ∈ b.delta s k → t < b.n

/-- Both endpoints of a fragment are allocated states of the arena. -/
def FragBelow (f : NFAFragment) (b : NFABuilder) : Prop :=
  f.start < b.n ∧ f.endS < b.n

theorem add_transition_n (b : NFABuilder) (s : Nat) (k : Option Char)
    (t : Nat) : (add_transition b s k t).n = b.n := rfl

theorem mem_add_transition {b : NFABuilder} {s : Nat} {k : Option Char}
    {t s' : Nat} {k' : Option Char} {t' : Nat} :
    t' ∈ (add_transition b s k t).delta s' k' ↔
      t' ∈ b.delta s' k' ∨ (s' = s ∧ k' = k ∧ t' = t) := by
  simp only [add_transition]
  split
  · simp_all
  · simp_all

theorem build_fragment_for_symbol_eq (symbol : Char) (b : NFABuilder) :
    build_fragment_for_symbol symbol b =
      (⟨b.n, b.n + 1⟩,
       add_transition ⟨b.n + 2, b.delta⟩ b.n (some symbol) (b.n + 1)) := rfl

theorem apply_star_to_fragment_eq (f : NFAFragment) (b : NFABuilder) :
    apply_star_to_fragment f b =
      (⟨b.n, b.n + 1⟩,
       add_transition
         (add_transition
           (add_transition
             (add_transition ⟨b.n + 2, b.delta⟩ b.n none f.start)
             b.n none (b.n + 1))
           f.endS none f.start)
         f.endS none (b.n + 1)) := rfl

theorem apply_plus_to_fragment_eq (f : NFAFragment) (b : NFABuilder) :
    apply_plus_to_fragment f b =
      (⟨f.start, b.n⟩,
       add_transition (add_transition ⟨b.n + 1, b.delta⟩ f.endS none f.start)
         f.endS none b.n) := rfl

theorem mem_build_fragment_delta {symbol : Char} {b : NFABuilder} {s : Nat}
    {k : Option Char} {t : Nat} :
    t ∈ (build_fragment_for_symbol symbol b).2.delta s k ↔
      t ∈ b.delta s k ∨ (s = b.n ∧ k = some symbol ∧ t = b.n + 1) := by
  rw [build_fragment_for_symbol_eq]
  simp [mem_add_transition]

theorem mem_apply_star_delta {f : NFAFragment} {b : NFABuilder} {s : Nat}
    {k : Option Char} {t : Nat} :
    t ∈ (apply_star_to_fragment f b).2.delta s k ↔
      t ∈ b.delta s k ∨
        (s = b.n ∧ k = none ∧ t = f.start) ∨
        (s = b.n ∧ k = none ∧ t = b.n + 1) ∨
        (s = f.endS ∧ k = none ∧ t = f.start) ∨
        (s = f.endS ∧ k = none ∧ t = b.n + 1) := by
  rw [apply_star_to_fragment_eq]
  simp [mem_add_transition]
  tauto

theorem mem_apply_plus_delta {f : NFAFragment} {b : NFABuilder} {s : Nat}
    {k : Option Char} {t : Nat} :
    t ∈ (apply_plus_to_fragment f b).2.delta s k ↔
      t ∈ b.delta s k ∨
        (s = f.endS ∧ k = none ∧ t = f.start) ∨
        (s = f.endS ∧ k = none ∧ t = b.n) := by
  rw [apply_plus_to_fragment_eq]
  simp [mem_add_transition]
  tauto

/-- Well-formedness carried through one compiler step: the arena is still
below its size bound, the accumulated fragment (if any) lies inside the
arena, and the arena only grew. -/
def GoodPair (n0 : Nat) (p : NFABuilder × Option NFAFragment) : Prop :=
  BuilderBelow p.1 ∧ (∀ g, p.2 = some g → FragBelow g p.1) ∧ n0 ≤ p.1.n

theorem attach_fragment_good {b : NFABuilder} {acc : Option NFAFragment}
    {f : NFAFragment} (hb : BuilderBelow b)
    (hacc : ∀ g, acc = some g → FragBelow g b) (hf : FragBelow f b) :
    GoodPair b.n (attach_fragment b acc f) := by
  cases acc with
  | none =>
    refine ⟨hb, ?_, Nat.le_refl _⟩
    intro g hg
    simp only [attach_fragment] at hg
    cases hg
    exact hf
  | some base =>
    obtain ⟨h1, h2⟩ := hacc base rfl
    refine ⟨?_, ?_, Nat.le_refl _⟩
    · intro s k t h
      rcases mem_add_transition.mp h with h | ⟨_, _, h⟩
      · exact hb s k t h
      · subst h; exact hf.1
    · intro g hg
      simp only [attach_fragment] at hg
      cases hg
      exact ⟨h1, hf.2⟩

theorem fragBelow_mono {g : NFAFragment} {b b' : NFABuilder}
    (h : FragBelow g b) (hn : b.n ≤ b'.n) : FragBelow g b' :=
  ⟨lt_of_lt_of_le h.1 hn, lt_of_lt_of_le h.2 hn⟩

theorem build_fragment_n (c : Char) (b : NFABuilder) :
    (build_fragment_for_symbol c b).2.n = b.n + 2 := rfl

theorem build_fragment_frag (c : Char) (b : NFABuilder) :
    (build_fragment_for_symbol c b).1 = ⟨b.n, b.n + 1⟩ := rfl

theorem apply_star_n (f : NFAFragment) (b : NFABuilder) :
    (apply_star_to_fragment f b).2.n = b.n + 2 := rfl

theorem apply_star_frag (f : NFAFragment) (b : NFABuilder) :
    (apply_star_to_fragment f b).1 = ⟨b.n, b.n + 1⟩ := rfl

theorem apply_plus_n (f : NFAFragment) (b : NFABuilder) :
    (apply_plus_to_fragment f b).2.n = b.n + 1 := rfl

theorem apply_plus_frag (f : NFAFragment) (b : NFABuilder) :
    (apply_plus_to_fragment f b).1 = ⟨f.start, b.n⟩ := rfl

theorem build_fragment_good {c : Char} {b : NFABuilder} (hb : BuilderBelow b) :
    BuilderBelow (build_fragment_for_symbol c b).2 ∧
      FragBelow (build_fragment_for_symbol c b).1
        (build_fragment_for_symbol c b).2 ∧
      b.n ≤ (build_fragment_for_symbol c b).2.n := by
  have hn := build_fragment_n c b
  refine ⟨?_, ?_, ?_⟩
  · intro s k t h
    rcases mem_build_fragment_delta.mp h with h | ⟨_, _, h⟩
    · have := hb s k t h
      omega
    · omega
  · exact ⟨show b.n < b.n + 2 by omega, show b.n + 1 < b.n + 2 by omega⟩
  · omega

theorem apply_star_good {f : NFAFragment} {b : NFABuilder}
    (hb : BuilderBelow b) (hf : FragBelow f b) :
    BuilderBelow (apply_star_to_fragment f b).2 ∧
      FragBelow (apply_star_to_fragment f b).1 (apply_star_to_fragment f b).2 ∧
      b.n ≤ (apply_star_to_fragment f b).2.n := by
  obtain ⟨hf1, hf2⟩ := hf
  have hn := apply_star_n f b
  refine ⟨?_, ?_, ?_⟩
  · intro s k t h
    rcases mem_apply_star_delta.mp h with
      h | ⟨_, _, h⟩ | ⟨_, _, h⟩ | ⟨_, _, h⟩ | ⟨_, _, h⟩
    · have := hb s k t h
      omega
    all_goals omega
  · exact ⟨show b.n < b.n + 2 by omega, show b.n + 1 < b.n + 2 by omega⟩
  · omega

theorem apply_plus_good {f : NFAFragment} {b : NFABuilder}
    (hb : BuilderBelow b) (hf : FragBelow f b) :
    BuilderBelow (apply_plus_to_fragment f b).2 ∧
      FragBelow (apply_plus_to_fragment f b).1 (apply_plus_to_fragment f b).2 ∧
      b.n ≤ (apply_plus_to_fragment f b).2.n := by
  obtain ⟨hf1, hf2⟩ := hf
  have hn := apply_plus_n f b
  refine ⟨?_, ?_, ?_⟩
  · intro s k t h
    rcases mem_apply_plus_delta.mp h with h | ⟨_, _, h⟩ | ⟨_, _, h⟩
    · have := hb s k t h
      omega
    all_goals omega
  · exact ⟨show f.start < b.n + 1 by omega, show b.n < b.n + 1 by omega⟩
  · omega

theorem consume_atom_good {b : NFABuilder} {acc : Option NFAFragment}
    {c : Char} {rep : Option Char} (hb : BuilderBelow b)
    (hacc : ∀ g, acc = some g → FragBelow g b) :
    GoodPair b.n (consume_atom b acc c rep) := by
  have key : ∀ (f2 : NFAFragment) (b2 : NFABuilder),
      BuilderBelow b2 → FragBelow f2 b2 → b.n ≤ b2.n →
      GoodPair b.n (attach_fragment b2 acc f2) := by
    intro f2 b2 hq1 hq2 hq3
    have hacc' : ∀ g, acc = some g → FragBelow g b2 := fun g hg =>
      fragBelow_mono (hacc g hg) hq3
    obtain ⟨w1, w2, w3⟩ := attach_fragment_good hq1 hacc' hq2
    exact ⟨w1, w2, le_trans hq3 w3⟩
  unfold consume_atom
  obtain ⟨w1, w2, w3⟩ := build_fragment_good (c := c) (b := b) hb
  rcases hfb : build_fragment_for_symbol c b with ⟨f1, b1⟩
  rw [hfb] at w1 w2 w3
  dsimp only at w1 w2 w3 ⊢
  split
  · obtain ⟨v1, v2, v3⟩ := apply_star_good w1 w2
    rcases hst : apply_star_to_fragment f1 b1 with ⟨f2, b2⟩
    rw [hst] at v1 v2 v3
    dsimp only at v1 v2 v3
    exact key f2 b2 v1 v2 (by omega)
  · split
    · obtain ⟨v1, v2, v3⟩ := apply_plus_good w1 w2
      rcases hst : apply_plus_to_fragment f1 b1 with ⟨f2, b2⟩
      rw [hst] at v1 v2 v3
      dsimp only at v1 v2 v3
      exact key f2 b2 v1 v2 (by omega)
    · exact key f1 b1 w1 w2 (by omega)

theorem build_nfa_loop_good {cs : List Char} {b : NFABuilder}
    {acc : Option NFAFragment} {p : NFABuilder × Option NFAFragment}
    (hb : BuilderBelow b) (hacc : ∀ g, acc = some g → FragBelow g b)
    (h : build_nfa_loop b acc cs = .ok p) : GoodPair b.n p := by
  induction b, acc, cs using build_nfa_loop.induct generalizing p with
  | case1 b acc =>
    simp only [build_nfa_loop] at h
    cases h
    exact ⟨hb, hacc, Nat.le_refl _⟩
  | case2 b acc c rest hop =>
    rw [build_nfa_loop.eq_def] at h
    simp only [if_pos hop] at h
    cases h
  | case3 b acc c hop hat r rest' hrop b1 acc1 hca ih =>
    rw [build_nfa_loop, if_neg hop, if_pos hat, if_pos hrop] at h
    simp only [hca] at h
    obtain ⟨g1, g2, g3⟩ := @consume_atom_good b acc c (some r) hb hacc
    rw [hca] at g1 g2 g3
    obtain ⟨w1, w2, w3⟩ := ih g1 g2 h
    exact ⟨w1, w2, le_trans g3 w3⟩
  | case4 b acc c hop hat r rest' hrop b1 acc1 hca ih =>
    rw [build_nfa_loop, if_neg hop, if_pos hat] at h
    simp only [if_neg hrop, hca] at h
    obtain ⟨g1, g2, g3⟩ := @consume_atom_good b acc c none hb hacc
    rw [hca] at g1 g2 g3
    obtain ⟨w1, w2, w3⟩ := ih g1 g2 h
    exact ⟨w1, w2, le_trans g3 w3⟩
  | case5 b acc c hop hat b1 acc1 hca ih =>
    rw [build_nfa_loop, if_neg hop, if_pos hat] at h
    simp only [hca] at h
    obtain ⟨g1, g2, g3⟩ := @consume_atom_good b acc c none hb hacc
    rw [hca] at g1 g2 g3
    obtain ⟨w1, w2, w3⟩ := ih g1 g2 h
    exact ⟨w1, w2, le_trans g3 w3⟩
  | case6 b acc c rest hop hat =>
    rw [build_nfa_loop.eq_def] at h
    simp only [if_neg hop, if_neg hat] at h
    cases h

theorem build_nfa_cases {p : List Char} {a : RegexFSM}
    (h : build_nfa p = .ok a) :
    ∃ b acc, build_nfa_loop ⟨0, fun _ _ => []⟩ none p = .ok (b, acc) ∧
      ((acc = none ∧ a = ⟨b.n + 1, b.delta, b.n, fun q => q == b.n⟩) ∨
        (∃ base, acc = some base ∧
          a = ⟨b.n, b.delta, base.start, fun q => q == base.endS⟩)) := by
  unfold build_nfa at h
  rcases hl : build_nfa_loop ⟨0, fun _ _ => []⟩ none p with e | ⟨b, acc⟩
  · rw [hl] at h
    cases h
  · rw [hl] at h
    cases acc with
    | none =>
      simp only [new_state] at h
      cases h
      exact ⟨b, none, rfl, Or.inl ⟨rfl, rfl⟩⟩
    | some base =>
      cases h
      exact ⟨b, some base, rfl, Or.inr ⟨base, rfl, rfl⟩⟩

theorem initial_builder_below : BuilderBelow ⟨0, fun _ _ => []⟩ := by
  intro s k t h
  simp at h

theorem build_nfa_targetsBelow {p : List Char} {a : RegexFSM}
    (h : build_nfa p = .ok a) : TargetsBelow a := by
  obtain ⟨b, acc, hl, hcase⟩ := build_nfa_cases h
  obtain ⟨g1, g2, g3⟩ :=
    build_nfa_loop_good initial_builder_below (by simp) hl
  rcases hcase with ⟨hn, ha⟩ | ⟨base, hn, ha⟩ <;> subst ha <;> intro s k t ht
  · exact Nat.lt_succ_of_lt (g1 s k t ht)
  · exact g1 s k t ht

theorem build_nfa_start_lt {p : List Char} {a : RegexFSM}
    (h : build_nfa p = .ok a) : a.start_state < a.n := by
  obtain ⟨b, acc, hl, hcase⟩ := build_nfa_cases h
  obtain ⟨g1, g2, g3⟩ :=
    build_nfa_loop_good initial_builder_below (by simp) hl
  rcases hcase with ⟨hn, ha⟩ | ⟨base, hn, ha⟩ <;> subst ha
  · exact Nat.lt_succ_self _
  · exact (g2 base hn).1

/-!  Claim theorems (part 1). -/

/-- Claim C2: for the automaton compiled from the pattern `a*4.+hi`,
`check_string` accepts `aaaaaa4uhi` and `4uhi` and rejects `meow` and
`4hi`. -/
theorem C2_reference_pattern_examples :
    (build_nfa ("a*4.+hi".toList)).map
        (fun a => check_string a ("aaaaaa4uhi".toList)) = .ok true ∧
      (build_nfa ("a*4.+hi".toList)).map
        (fun a => check_string a ("4uhi".toList)) = .ok true ∧
      (build_nfa ("a*4.+hi".toList)).map
        (fun a => check_string a ("meow".toList)) = .ok false ∧
      (build_nfa ("a*4.+hi".toList)).map
        (fun a => check_string a ("4hi".toList)) = .ok false :=
  ⟨rfl, rfl, rfl, rfl⟩

/-- Claim C6: on every successfully compiled automaton, `check_string` is a
total boolean function of the input (the embedding returns a `Bool` for
every input string, so there is no exceptional path), and on the empty
input it accepts exactly when the epsilon closure of the start state
contains a final state. -/
theorem C6_check_string_total {p : List Char} {a : RegexFSM}
    (h : build_nfa p = .ok a) (input : List Char) :
    (check_string a input = true ∨ check_string a input = false) ∧
      (check_string a [] = true ↔
        ∃ q ∈ epsilon_closure a ({a.start_state} : Finset Nat),
          a.is_final q = true) := by
  constructor
  · cases check_string a input with
    | true => exact Or.inl rfl
    | false => exact Or.inr rfl
  · simp [check_string]

/-- Witness for C6 at the pattern `a` and the input `b` (a character absent
from the pattern's alphabet). -/
theorem C6_witness :
    build_nfa ['a'] = .ok (fsm_of ['a']) ∧
      ((check_string (fsm_of ['a']) ['b'] = true ∨
          check_string (fsm_of ['a']) ['b'] = false) ∧
        (check_string (fsm_of ['a']) [] = true ↔
          ∃ q ∈ epsilon_closure (fsm_of ['a'])
              ({(fsm_of ['a']).start_state} : Finset Nat),
            (fsm_of ['a']).is_final q = true)) :=
  ⟨rfl, C6_check_string_total (p := ['a']) (a := fsm_of ['a']) (by rfl) ['b']⟩

/-- Claim C7: on every compiled automaton, `epsilon_closure` applied to a
set `S` of states is total (it is a function in the embedding; the
worklist's termination is established by reaching the fixed point after at
most `n` expansion steps) and contains exactly the states reachable from
`S` by zero or more epsilon transitions — in particular all of `S`. -/
theorem C7_epsilon_closure_reachable {p : List Char} {a : RegexFSM}
    {S : Finset Nat} (h : build_nfa p = .ok a) (hS : ∀ s ∈ S, s < a.n) :
    S ⊆ epsilon_closure a S ∧
      ∀ q, q ∈ epsilon_closure a S ↔
        ∃ s ∈ S, Relation.ReflTransGen (EpsEdge a) s q := by
  refine ⟨subset_epsilon_closure a S, fun q => ?_⟩
  exact mem_epsilon_closure_iff_reach (build_nfa_targetsBelow h)
    (fun s hs => Finset.mem_range.mpr (hS s hs)) q

/-- Witness for C7 at the pattern `a*` (whose star construction makes the
epsilon graph cyclic) and the set holding only the start state. -/
theorem C7_witness :
    build_nfa ['a', '*'] = .ok (fsm_of ['a', '*']) ∧
      (({(fsm_of ['a', '*']).start_state} : Finset Nat) ⊆
          epsilon_closure (fsm_of ['a', '*'])
            ({(fsm_of ['a', '*']).start_state} : Finset Nat) ∧
        ∀ q, q ∈ epsilon_closure (fsm_of ['a', '*'])
            ({(fsm_of ['a', '*']).start_state} : Finset Nat) ↔
          ∃ s ∈ ({(fsm_of ['a', '*']).start_state} : Finset Nat),
            Relation.ReflTransGen (EpsEdge (fsm_of ['a', '*'])) s q) :=
  ⟨rfl, C7_epsilon_closure_reachable (p := ['a', '*']) (a := fsm_of ['a', '*']) (by rfl) (by decide)⟩

/-- Claim C8: matching is pure and deterministic.  In the state-threaded
rendering `check_string_run`, the automaton coming out of a call is the
automaton that went in (no transition table and no `is_final` flag
changed), the boolean agrees with the pure function `check_string`, and
calling again on the returned automaton gives the same boolean. -/
theorem C8_matching_pure (a : RegexFSM) (s : List Char) :
    (check_string_run a s).2 = a ∧
      (check_string_run a s).1 = check_string a s ∧
      (check_string_run (check_string_run a s).2 s).1 =
        (check_string_run a s).1 := by
  have steps2 : ∀ (l : List Char) (cur : Finset Nat),
      (check_string_steps a cur l).2 = a := by
    intro l
    induction l with
    | nil => intro cur; rfl
    | cons c rest ih => intro cur; exact ih _
  have steps1 : ∀ (l : List Char) (cur : Finset Nat),
      (check_string_steps a cur l).1 =
        l.foldl (fun cur c => epsilon_closure a (stepChar a c cur)) cur := by
    intro l
    induction l with
    | nil => intro cur; rfl
    | cons c rest ih => intro cur; exact ih _
  have h2 : (check_string_run a s).2 = a := steps2 s _
  refine ⟨h2, ?_, ?_⟩
  · show (check_string_run a s).1 = check_string a s
    unfold check_string_run check_string
    dsimp only
    rw [steps1, steps2]
  · rw [h2]

/-- Claim C9: after a successful compilation exactly one state is final —
the end state of the last concatenated fragment, or the lone start state
itself for the empty pattern — and (the automaton being immutable in the
embedding, cf. `C8_matching_pure`) it stays that way. -/
theorem C9_unique_final_state {p : List Char} {a : RegexFSM}
    (h : build_nfa p = .ok a) :
    (∃! q, a.is_final q = true) ∧
      (p = [] → a.is_final a.start_state = true) ∧
      (∀ b base, build_nfa_loop ⟨0, fun _ _ => []⟩ none p = .ok (b, some base) →
        a.is_final base.endS = true) := by
  obtain ⟨b, acc, hl, hcase⟩ := build_nfa_cases h
  rcases hcase with ⟨hn, ha⟩ | ⟨base, hn, ha⟩ <;> subst ha
  · refine ⟨⟨b.n, by simp, fun y hy => by simpa using hy⟩, fun _ => by simp, ?_⟩
    intro b' base' hl'
    rw [hn] at hl
    rw [hl'] at hl
    cases hl
  · subst hn
    refine ⟨⟨base.endS, by simp, fun y hy => by simpa using hy⟩, ?_, ?_⟩
    · intro hp
      subst hp
      rw [build_nfa_loop] at hl
      cases hl
    · intro b' base' hl'
      rw [hl'] at hl
      cases hl
      simp

/-- Witness for C9 at the pattern `ab`. -/
theorem C9_witness :
    build_nfa ['a', 'b'] = .ok (fsm_of ['a', 'b']) ∧
      ((∃! q, (fsm_of ['a', 'b']).is_final q = true) ∧
        (['a', 'b'] = ([] : List Char) →
          (fsm_of ['a', 'b']).is_final (fsm_of ['a', 'b']).start_state = true) ∧
        (∀ b base,
          build_nfa_loop ⟨0, fun _ _ => []⟩ none ['a', 'b'] = .ok (b, some base) →
          (fsm_of ['a', 'b']).is_final base.endS = true)) :=
  ⟨rfl, C9_unique_final_state (p := ['a', 'b']) (a := fsm_of ['a', 'b']) (by rfl)⟩

/-- Claim C10: `epsilon_closure` is idempotent on every state set of a
compiled automaton. -/
theorem C10_epsilon_closure_idempotent {p : List Char} {a : RegexFSM}
    {S : Finset Nat} (h : build_nfa p = .ok a) (hS : ∀ s ∈ S, s < a.n) :
    epsilon_closure a (epsilon_closure a S) = epsilon_closure a S :=
  epsilon_closure_idem (build_nfa_targetsBelow h)
    (fun s hs => Finset.mem_range.mpr (hS s hs))

/-- Witness for C10 at the pattern `a+` and the set holding only the start
state. -/
theorem C10_witness :
    build_nfa ['a', '+'] = .ok (fsm_of ['a', '+']) ∧
      epsilon_closure (fsm_of ['a', '+'])
          (epsilon_closure (fsm_of ['a', '+'])
            ({(fsm_of ['a', '+']).start_state} : Finset Nat)) =
        epsilon_closure (fsm_of ['a', '+'])
          ({(fsm_of ['a', '+']).start_state} : Finset Nat) :=
  ⟨rfl, C10_epsilon_closure_idempotent (p := ['a', '+']) (a := fsm_of ['a', '+']) (by rfl) (by decide)⟩

/-!  The automata compiled from single-atom `*` and `+` patterns. -/

theorem atom_not_op {c : Char} (h : isAtomChar c = true) :
    ¬(c = '*' ∨ c = '+') := by
  rintro (rfl | rfl) <;> exact absurd h (by decide)

theorem foldl_step_empty (a : RegexFSM) (rest : List Char) :
    rest.foldl (fun cur c => epsilon_closure a (stepChar a c cur))
      (∅ : Finset Nat) = ∅ := by
  induction rest with
  | nil => rfl
  | cons c rest ih =>
    simp only [List.foldl_cons, stepChar_empty, epsilon_closure_empty]
    exact ih

theorem star_build {sym : Char} {a : RegexFSM} (hat : isAtomChar sym = true)
    (hb : build_nfa [sym, '*'] = .ok a) :
    a.n = 4 ∧ a.start_state = 2 ∧ (∀ q, a.is_final q = (q == 3)) ∧
      ∀ s k t, t ∈ a.delta s k ↔
        ((s = 0 ∧ k = some sym ∧ t = 1) ∨ (s = 2 ∧ k = none ∧ t = 0) ∨
          (s = 2 ∧ k = none ∧ t = 3) ∨ (s = 1 ∧ k = none ∧ t = 0) ∨
          (s = 1 ∧ k = none ∧ t = 3)) := by
  have hl : build_nfa_loop ⟨0, fun _ _ => []⟩ none [sym, '*'] =
      .ok (add_transition (add_transition (add_transition (add_transition
            (add_transition ⟨4, fun _ _ => []⟩ 0 (some sym) 1)
            2 none 0) 2 none 3) 1 none 0) 1 none 3, some ⟨2, 3⟩) := by
    rw [build_nfa_loop, if_neg (atom_not_op hat), if_pos hat,
      if_pos (Or.inl rfl)]
    rfl
  unfold build_nfa at hb
  rw [hl] at hb
  cases hb
  refine ⟨rfl, rfl, fun q => rfl, fun s k t => ?_⟩
  show t ∈ (add_transition (add_transition (add_transition (add_transition
      (add_transition ⟨4, fun _ _ => []⟩ 0 (some sym) 1)
      2 none 0) 2 none 3) 1 none 0) 1 none 3).delta s k ↔ _
  simp only [mem_add_transition]
  have hbase : t ∈ (⟨4, fun _ _ => []⟩ : NFABuilder).delta s k ↔ False := by
    simp
  rw [hbase]
  tauto

theorem plus_build {sym : Char} {a : RegexFSM} (hat : isAtomChar sym = true)
    (hb : build_nfa [sym, '+'] = .ok a) :
    a.n = 3 ∧ a.start_state = 0 ∧ (∀ q, a.is_final q = (q == 2)) ∧
      ∀ s k t, t ∈ a.delta s k ↔
        ((s = 0 ∧ k = some sym ∧ t = 1) ∨ (s = 1 ∧ k = none ∧ t = 0) ∨
          (s = 1 ∧ k = none ∧ t = 2)) := by
  have hl : build_nfa_loop ⟨0, fun _ _ => []⟩ none [sym, '+'] =
      .ok (add_transition (add_transition
            (add_transition ⟨3, fun _ _ => []⟩ 0 (some sym) 1)
            1 none 0) 1 none 2, some ⟨0, 2⟩) := by
    rw [build_nfa_loop, if_neg (atom_not_op hat), if_pos hat,
      if_pos (Or.inr rfl)]
    rfl
  unfold build_nfa at hb
  rw [hl] at hb
  cases hb
  refine ⟨rfl, rfl, fun q => rfl, fun s k t => ?_⟩
  show t ∈ (add_transition (add_transition
      (add_transition ⟨3, fun _ _ => []⟩ 0 (some sym) 1)
      1 none 0) 1 none 2).delta s k ↔ _
  simp only [mem_add_transition]
  have hbase : t ∈ (⟨3, fun _ _ => []⟩ : NFABuilder).delta s k ↔ False := by
    simp
  rw [hbase]
  tauto

theorem star_match {sym : Char} {a : RegexFSM} (hat : isAtomChar sym = true)
    (hb : build_nfa [sym, '*'] = .ok a) :
    ∀ s, check_string a s = true ↔ ∀ c ∈ s, c = sym ∨ sym = '.' := by
  obtain ⟨hn, hstart, hfin, hdelta⟩ := star_build hat hb
  have haccept : ∀ S : Finset Nat,
      (∃ q ∈ S, a.is_final q = true) ↔ 3 ∈ S := by
    intro S
    constructor
    · rintro ⟨q, hq, hf⟩
      rw [hfin] at hf
      simp only [beq_iff_eq] at hf
      subst hf
      exact hq
    · intro h3
      exact ⟨3, h3, by simp [hfin]⟩
  have hstep : ∀ (c : Char) (S : Finset Nat), 0 ∈ S →
      stepChar a c S =
        if c = sym ∨ sym = '.' then ({1} : Finset Nat) else ∅ := by
    intro c S h0
    by_cases hm : c = sym ∨ sym = '.'
    · rw [if_pos hm]
      ext q
      rw [mem_stepChar]
      simp only [Finset.mem_singleton]
      constructor
      · rintro ⟨s, hs, hq | hq⟩ <;> rw [hdelta] at hq <;>
          rcases hq with ⟨_, h', hq1⟩ | ⟨_, h', _⟩ | ⟨_, h', _⟩ | ⟨_, h', _⟩ | ⟨_, h', _⟩ <;>
          first
            | exact hq1
            | exact Option.noConfusion h'
      · rintro rfl
        rcases hm with rfl | hm
        · exact ⟨0, h0, Or.inl (by rw [hdelta]; simp)⟩
        · exact ⟨0, h0, Or.inr (by rw [hdelta]; simp [hm])⟩
    · rw [if_neg hm]
      ext q
      rw [mem_stepChar]
      simp only [Finset.not_mem_empty, iff_false]
      rintro ⟨s, hs, hq | hq⟩ <;> rw [hdelta] at hq <;>
        rcases hq with ⟨_, h', _⟩ | ⟨_, h', _⟩ | ⟨_, h', _⟩ | ⟨_, h', _⟩ | ⟨_, h', _⟩
      · exact hm (Or.inl (Option.some.inj h'))
      all_goals first
        | exact Option.noConfusion h'
        | exact hm (Or.inr (Option.some.inj h').symm)
  have h1 : epsStep a ({2} : Finset Nat) = {0, 2, 3} := by
    ext q
    rw [mem_epsStep]
    simp [hdelta]
    tauto
  have h2 : epsStep a ({0, 2, 3} : Finset Nat) = {0, 2, 3} := by
    ext q
    rw [mem_epsStep]
    simp [hdelta]
    tauto
  have h3 : epsStep a ({1} : Finset Nat) = {0, 1, 3} := by
    ext q
    rw [mem_epsStep]
    simp [hdelta]
    tauto
  have h4 : epsStep a ({0, 1, 3} : Finset Nat) = {0, 1, 3} := by
    ext q
    rw [mem_epsStep]
    simp [hdelta]
    tauto
  have hc2 : epsilon_closure a ({2} : Finset Nat) = {0, 2, 3} := by
    have hfix : epsStep a (epsStep a ({2} : Finset Nat)) = epsStep a {2} := by
      rw [h1]
      exact h2
    rw [epsilon_closure_eq_step (by omega) hfix, h1]
  have hc1 : epsilon_closure a ({1} : Finset Nat) = {0, 1, 3} := by
    have hfix : epsStep a (epsStep a ({1} : Finset Nat)) = epsStep a {1} := by
      rw [h3]
      exact h4
    rw [epsilon_closure_eq_step (by omega) hfix, h3]
  have run : ∀ (rest : List Char) (S : Finset Nat),
      (S = {0, 2, 3} ∨ S = {0, 1, 3}) →
      ((∃ q ∈ rest.foldl
          (fun cur c => epsilon_closure a (stepChar a c cur)) S,
          a.is_final q = true) ↔
        ∀ c ∈ rest, c = sym ∨ sym = '.') := by
    intro rest
    induction rest with
    | nil =>
      intro S hS
      simp only [List.foldl_nil, haccept]
      rcases hS with rfl | rfl <;> simp
    | cons c rest ih =>
      intro S hS
      have h0 : (0 : Nat) ∈ S := by rcases hS with rfl | rfl <;> simp
      simp only [List.foldl_cons]
      rw [hstep c S h0]
      by_cases hm : c = sym ∨ sym = '.'
      · rw [if_pos hm, hc1, ih _ (Or.inr rfl)]
        simp only [List.mem_cons]
        constructor
        · intro hall c' hc'
          rcases hc' with rfl | hc'
          · exact hm
          · exact hall c' hc'
        · intro hall c' hc'
          exact hall c' (Or.inr hc')
      · rw [if_neg hm, epsilon_closure_empty, foldl_step_empty]
        constructor
        · rintro ⟨q, hq, _⟩
          exact absurd hq (Finset.not_mem_empty q)
        · intro hall
          exact absurd (hall c (List.mem_cons_self c rest)) hm
  intro s
  unfold check_string
  dsimp only
  rw [decide_eq_true_iff, hstart, hc2]
  exact run s _ (Or.inl rfl)

theorem plus_match {sym : Char} {a : RegexFSM} (hat : isAtomChar sym = true)
    (hb : build_nfa [sym, '+'] = .ok a) :
    ∀ s, check_string a s = true ↔
      (s ≠ [] ∧ ∀ c ∈ s, c = sym ∨ sym = '.') := by
  obtain ⟨hn, hstart, hfin, hdelta⟩ := plus_build hat hb
  have haccept : ∀ S : Finset Nat,
      (∃ q ∈ S, a.is_final q = true) ↔ 2 ∈ S := by
    intro S
    constructor
    · rintro ⟨q, hq, hf⟩
      rw [hfin] at hf
      simp only [beq_iff_eq] at hf
      subst hf
      exact hq
    · intro h2
      exact ⟨2, h2, by simp [hfin]⟩
  have hstep : ∀ (c : Char) (S : Finset Nat), 0 ∈ S →
      stepChar a c S =
        if c = sym ∨ sym = '.' then ({1} : Finset Nat) else ∅ := by
    intro c S h0
    by_cases hm : c = sym ∨ sym = '.'
    · rw [if_pos hm]
      ext q
      rw [mem_stepChar]
      simp only [Finset.mem_singleton]
      constructor
      · rintro ⟨s, hs, hq | hq⟩ <;> rw [hdelta] at hq <;>
          rcases hq with ⟨_, h', hq1⟩ | ⟨_, h', _⟩ | ⟨_, h', _⟩ <;>
          first
            | exact hq1
            | exact Option.noConfusion h'
      · rintro rfl
        rcases hm with rfl | hm
        · exact ⟨0, h0, Or.inl (by rw [hdelta]; simp)⟩
        · exact ⟨0, h0, Or.inr (by rw [hdelta]; simp [hm])⟩
    · rw [if_neg hm]
      ext q
      rw [mem_stepChar]
      simp only [Finset.not_mem_empty, iff_false]
      rintro ⟨s, hs, hq | hq⟩ <;> rw [hdelta] at hq <;>
        rcases hq with ⟨_, h', _⟩ | ⟨_, h', _⟩ | ⟨_, h', _⟩
      · exact hm (Or.inl (Option.some.inj h'))
      all_goals first
        | exact Option.noConfusion h'
        | exact hm (Or.inr (Option.some.inj h').symm)
  have h1 : epsStep a ({0} : Finset Nat) = {0} := by
    ext q
    rw [mem_epsStep]
    simp [hdelta]
  have h3 : epsStep a ({1} : Finset Nat) = {0, 1, 2} := by
    ext q
    rw [mem_epsStep]
    simp [hdelta]
    tauto
  have h4 : epsStep a ({0, 1, 2} : Finset Nat) = {0, 1, 2} := by
    ext q
    rw [mem_epsStep]
    simp [hdelta]
    tauto
  have hc0 : epsilon_closure a ({0} : Finset Nat) = {0} :=
    epsilon_closure_eq_of_fixed h1
  have hc1 : epsilon_closure a ({1} : Finset Nat) = {0, 1, 2} := by
    have hfix : epsStep a (epsStep a ({1} : Finset Nat)) = epsStep a {1} := by
      rw [h3]
      exact h4
    rw [epsilon_closure_eq_step (by omega) hfix, h3]
  have hne : ({0} : Finset Nat) ≠ {0, 1, 2} := by decide
  have run : ∀ (rest : List Char) (S : Finset Nat),
      (S = {0} ∨ S = {0, 1, 2}) →
      ((∃ q ∈ rest.foldl
          (fun cur c => epsilon_closure a (stepChar a c cur)) S,
          a.is_final q = true) ↔
        ((rest = [] ∧ S = {0, 1, 2}) ∨
          (rest ≠ [] ∧ ∀ c ∈ rest, c = sym ∨ sym = '.'))) := by
    intro rest
    induction rest with
    | nil =>
      intro S hS
      simp only [List.foldl_nil, haccept]
      rcases hS with rfl | rfl
      · constructor
        · intro h2
          exact absurd h2 (by decide)
        · rintro (⟨_, hS⟩ | ⟨hne', _⟩)
          · exact absurd hS hne
          · exact absurd rfl hne'
      · constructor
        · intro _
          left
          constructor <;> trivial
        · intro _
          decide
    | cons c rest ih =>
      intro S hS
      have h0 : (0 : Nat) ∈ S := by rcases hS with rfl | rfl <;> simp
      simp only [List.foldl_cons]
      rw [hstep c S h0]
      by_cases hm : c = sym ∨ sym = '.'
      · rw [if_pos hm, hc1, ih _ (Or.inr rfl)]
        constructor
        · rintro (⟨rfl, _⟩ | ⟨_, hall⟩)
          · refine Or.inr ⟨by simp, ?_⟩
            intro c' hc'
            rcases List.mem_cons.mp hc' with rfl | hc'
            · exact hm
            · exact absurd hc' (List.not_mem_nil c')
          · refine Or.inr ⟨by simp, ?_⟩
            intro c' hc'
            rcases List.mem_cons.mp hc' with rfl | hc'
            · exact hm
            · exact hall c' hc'
        · rintro (⟨h', _⟩ | ⟨_, hall⟩)
          · exact absurd h' (List.cons_ne_nil c rest)
          · rcases eq_or_ne rest [] with rfl | hrest
            · exact Or.inl ⟨rfl, rfl⟩
            · exact Or.inr ⟨hrest,
                fun c' hc' => hall c' (List.mem_cons.mpr (Or.inr hc'))⟩
      · rw [if_neg hm, epsilon_closure_empty, foldl_step_empty]
        constructor
        · rintro ⟨q, hq, _⟩
          exact absurd hq (Finset.not_mem_empty q)
        · rintro (⟨h', _⟩ | ⟨_, hall⟩)
          · exact absurd h' (List.cons_ne_nil c rest)
          · exact absurd (hall c (List.mem_cons_self c rest)) hm
  intro s
  unfold check_string
  dsimp only
  rw [decide_eq_true_iff, hstart, hc0]
  rw [run s _ (Or.inl rfl)]
  constructor
  · rintro (⟨rfl, hS⟩ | h)
    · exact absurd hS hne
    · exact h
  · intro h
    exact Or.inr h

/-- Claim C3: the star construction creates fresh `new_start`, `new_end`
and adds exactly the four epsilon transitions `new_start → F.start`,
`new_start → new_end`, `F.end → F.start`, `F.end → new_end`; consequently a
single-atom pattern followed by `*` matches a string exactly when every
character is matched by the atom, the empty string included. -/
theorem C3_star_construction {sym : Char} {a : RegexFSM}
    (hat : isAtomChar sym = true) (hb : build_nfa [sym, '*'] = .ok a) :
    (∀ (f : NFAFragment) (b : NFABuilder),
      (apply_star_to_fragment f b).1 = ⟨b.n, b.n + 1⟩ ∧
        (apply_star_to_fragment f b).2.n = b.n + 2 ∧
        (∀ s k t, t ∈ (apply_star_to_fragment f b).2.delta s k ↔
          (t ∈ b.delta s k ∨ (s = b.n ∧ k = none ∧ t = f.start) ∨
            (s = b.n ∧ k = none ∧ t = b.n + 1) ∨
            (s = f.endS ∧ k = none ∧ t = f.start) ∨
            (s = f.endS ∧ k = none ∧ t = b.n + 1)))) ∧
      (∀ s, check_string a s = true ↔ ∀ c ∈ s, c = sym ∨ sym = '.') ∧
      check_string a [] = true := by
  refine ⟨fun f b => ⟨apply_star_frag f b, apply_star_n f b,
    fun s k t => mem_apply_star_delta⟩, star_match hat hb, ?_⟩
  rw [star_match hat hb []]
  intro c hc
  exact absurd hc (List.not_mem_nil c)

/-- Witness for C3 at the atom `a`. -/
theorem C3_witness :
    (isAtomChar 'a' = true ∧ build_nfa ['a', '*'] = .ok (fsm_of ['a', '*'])) ∧
      check_string (fsm_of ['a', '*']) [] = true :=
  ⟨⟨by decide, by rfl⟩,
    (@C3_star_construction 'a' (fsm_of ['a', '*']) (by decide) (by rfl)).2.2⟩

/-- Claim C4: a single-atom pattern followed by `+` matches a string
exactly when it is non-empty and every character is matched by the atom;
the plus construction reuses the fragment's start as the overall entry, so
the empty string is rejected. -/
theorem C4_plus_construction {sym : Char} {a : RegexFSM}
    (hat : isAtomChar sym = true) (hb : build_nfa [sym, '+'] = .ok a) :
    (∀ s, check_string a s = true ↔
        (s ≠ [] ∧ ∀ c ∈ s, c = sym ∨ sym = '.')) ∧
      check_string a [] = false ∧
      (∀ (f : NFAFragment) (b : NFABuilder),
        (apply_plus_to_fragment f b).1.start = f.start) := by
  refine ⟨plus_match hat hb, ?_, fun f b => rfl⟩
  rcases hck : check_string a [] with _ | _
  · rfl
  · have := (plus_match hat hb []).mp hck
    exact absurd rfl this.1

/-- Witness for C4 at the atom `a`: the empty string is rejected while `a`
and `aa` are accepted. -/
theorem C4_witness :
    (isAtomChar 'a' = true ∧ build_nfa ['a', '+'] = .ok (fsm_of ['a', '+'])) ∧
      check_string (fsm_of ['a', '+']) [] = false :=
  ⟨⟨by decide, by rfl⟩,
    (@C4_plus_construction 'a' (fsm_of ['a', '+']) (by decide) (by rfl)).2.1⟩

/-!  The chain automaton compiled from an atom-only pattern. -/

theorem build_nfa_loop_atom_step {b : NFABuilder} {acc : Option NFAFragment}
    {c : Char} {rest : List Char} (hc : isAtomChar c = true)
    (hrest : ∀ r rest', rest = r :: rest' → ¬(r = '*' ∨ r = '+')) :
    build_nfa_loop b acc (c :: rest) =
      build_nfa_loop (consume_atom b acc c none).1
        (consume_atom b acc c none).2 rest := by
  cases rest with
  | nil =>
    conv_lhs => rw [build_nfa_loop]
    rw [if_neg (atom_not_op hc), if_pos hc]
  | cons r rest' =>
    rw [build_nfa_loop, if_neg (atom_not_op hc), if_pos hc,
      if_neg (hrest r rest' rfl)]

theorem chain_consume {pre : List Char} {b : NFABuilder}
    {acc : Option NFAFragment} {c : Char}
    (hn : b.n = 2 * pre.length)
    (hacc : (pre = [] ∧ acc = none) ∨
      (pre ≠ [] ∧ acc = some ⟨0, 2 * pre.length - 1⟩))
    (hd : ChainDelta pre b.delta) :
    (consume_atom b acc c none).1.n = 2 * (pre ++ [c]).length ∧
      (consume_atom b acc c none).2 =
        some ⟨0, 2 * (pre ++ [c]).length - 1⟩ ∧
      ChainDelta (pre ++ [c]) (consume_atom b acc c none).1.delta := by
  unfold ChainDelta at hd
  have hlen : (pre ++ [c]).length = pre.length + 1 := by simp
  rcases hacc with ⟨rfl, rfl⟩ | ⟨hpre, rfl⟩
  · have hn0 : b.n = 0 := by simpa using hn
    have hca : consume_atom b none c none =
        (add_transition ⟨b.n + 2, b.delta⟩ b.n (some c) (b.n + 1),
          some ⟨b.n, b.n + 1⟩) := rfl
    rw [hca]
    refine ⟨?_, ?_, ?_⟩
    · show b.n + 2 = 2 * ([] ++ [c] : List Char).length
      simp [hn0]
    · show some (⟨b.n, b.n + 1⟩ : NFAFragment) =
        some ⟨0, 2 * ([] ++ [c] : List Char).length - 1⟩
      simp [hn0]
    · intro s k t
      show t ∈ (add_transition ⟨b.n + 2, b.delta⟩
        b.n (some c) (b.n + 1)).delta s k ↔ _
      rw [mem_add_transition]
      constructor
      · rintro (hb' | ⟨rfl, rfl, rfl⟩)
        · rw [hd] at hb'
          rcases hb' with ⟨i, hi, _⟩ | ⟨i, hi, _⟩ <;> simp at hi
        · refine Or.inl ⟨0, by simp, by omega, ?_, by omega⟩
          rfl
      · rintro (⟨i, hi, rfl, rfl, rfl⟩ | ⟨i, hi, _⟩)
        · have hi0 : i = 0 := by
            simp only [List.nil_append, List.length_singleton] at hi
            omega
          subst hi0
          exact Or.inr ⟨by omega, rfl, by omega⟩
        · exfalso
          simp only [List.nil_append, List.length_singleton] at hi
          omega
  · have hj : 1 ≤ pre.length := List.length_pos.mpr hpre
    have hca : consume_atom b (some ⟨0, 2 * pre.length - 1⟩) c none =
        (add_transition
          (add_transition ⟨b.n + 2, b.delta⟩ b.n (some c) (b.n + 1))
          (2 * pre.length - 1) none b.n,
          some ⟨0, b.n + 1⟩) := rfl
    rw [hca]
    refine ⟨?_, ?_, ?_⟩
    · show b.n + 2 = 2 * (pre ++ [c]).length
      omega
    · show some (⟨0, b.n + 1⟩ : NFAFragment) =
        some ⟨0, 2 * (pre ++ [c]).length - 1⟩
      have : b.n + 1 = 2 * (pre ++ [c]).length - 1 := by omega
      rw [this]
    · intro s k t
      show t ∈ (add_transition
        (add_transition ⟨b.n + 2, b.delta⟩ b.n (some c) (b.n + 1))
        (2 * pre.length - 1) none b.n).delta s k ↔ _
      rw [mem_add_transition, mem_add_transition]
      constructor
      · rintro ((hb' | ⟨rfl, rfl, rfl⟩) | ⟨rfl, rfl, rfl⟩)
        · rw [hd] at hb'
          rcases hb' with ⟨i, hi, hs, hk, ht⟩ | ⟨i, hi, hs, hk, ht⟩
          · refine Or.inl ⟨i, by omega, hs, ?_, ht⟩
            rw [List.getD_append pre [c] ' ' i hi] at *
            exact hk
          · exact Or.inr ⟨i, by omega, hs, hk, ht⟩
        · refine Or.inl ⟨pre.length, by omega, by omega, ?_, by omega⟩
          rw [List.getD_append_right pre [c] ' ' pre.length (Nat.le_refl _)]
          simp
        · refine Or.inr ⟨pre.length - 1, by omega, by omega, rfl, by omega⟩
      · rintro (⟨i, hi, rfl, rfl, rfl⟩ | ⟨i, hi, rfl, rfl, rfl⟩)
        · rw [hlen] at hi
          rcases Nat.lt_or_ge i pre.length with hilt | hige
          · refine Or.inl (Or.inl ?_)
            rw [hd]
            refine Or.inl ⟨i, hilt, rfl, ?_, rfl⟩
            rw [List.getD_append pre [c] ' ' i hilt]
          · have : i = pre.length := by omega
            subst this
            refine Or.inl (Or.inr ⟨by omega, ?_, by omega⟩)
            rw [List.getD_append_right pre [c] ' ' pre.length (Nat.le_refl _)]
            simp
        · rw [hlen] at hi
          rcases Nat.lt_or_ge (i + 1) pre.length with hilt | hige
          · refine Or.inl (Or.inl ?_)
            rw [hd]
            exact Or.inr ⟨i, hilt, rfl, rfl, rfl⟩
          · have : i + 1 = pre.length := by omega
            refine Or.inr ⟨by omega, rfl, by omega⟩

theorem chain_loop (cs : List Char) :
    ∀ (pre : List Char) (b : NFABuilder) (acc : Option NFAFragment),
    (∀ c ∈ cs, isAtomChar c = true) →
    b.n = 2 * pre.length →
    ((pre = [] ∧ acc = none) ∨
      (pre ≠ [] ∧ acc = some ⟨0, 2 * pre.length - 1⟩)) →
    ChainDelta pre b.delta →
    ∃ b' acc', build_nfa_loop b acc cs = .ok (b', acc') ∧
      b'.n = 2 * (pre ++ cs).length ∧
      ((pre ++ cs = [] ∧ acc' = none) ∨
        (pre ++ cs ≠ [] ∧ acc' = some ⟨0, 2 * (pre ++ cs).length - 1⟩)) ∧
      ChainDelta (pre ++ cs) b'.delta := by
  induction cs with
  | nil =>
    intro pre b acc _ hn hacc hd
    refine ⟨b, acc, rfl, ?_, ?_, ?_⟩
    · simpa using hn
    · simpa using hacc
    · simpa using hd
  | cons c rest ih =>
    intro pre b acc hcs hn hacc hd
    have hc : isAtomChar c = true := hcs c (List.mem_cons_self _ _)
    have hrest : ∀ r rest', rest = r :: rest' → ¬(r = '*' ∨ r = '+') := by
      intro r rest' hr
      refine atom_not_op (hcs r ?_)
      rw [hr]
      exact List.mem_cons_of_mem _ (List.mem_cons_self _ _)
    rw [build_nfa_loop_atom_step hc hrest]
    obtain ⟨w1, w2, w3⟩ := chain_consume (c := c) hn hacc hd
    obtain ⟨b', acc', hloop, hn', hacc', hd'⟩ :=
      ih (pre ++ [c]) (consume_atom b acc c none).1
        (consume_atom b acc c none).2
        (fun c' hc' => hcs c' (List.mem_cons_of_mem _ hc'))
        w1 (Or.inr ⟨by simp, w2⟩) w3
    have hre : pre ++ c :: rest = (pre ++ [c]) ++ rest := by simp
    refine ⟨b', acc', hloop, ?_, ?_, ?_⟩ <;> rw [hre] <;> assumption

theorem chain_build {p : List Char} {a : RegexFSM}
    (hall : ∀ c ∈ p, isAtomChar c = true) (hne : p ≠ [])
    (hb : build_nfa p = .ok a) :
    a.n = 2 * p.length ∧ a.start_state = 0 ∧
      (∀ q, a.is_final q = (q == 2 * p.length - 1)) ∧
      ChainDelta p a.delta := by
  have hd0 : ChainDelta [] (fun _ _ => ([] : List Nat)) := by
    intro s k t
    simp
  obtain ⟨b', acc', hloop, hn', hacc', hd'⟩ :=
    chain_loop p [] ⟨0, fun _ _ => []⟩ none hall (by simp)
      (Or.inl ⟨rfl, rfl⟩) hd0
  simp only [List.nil_append] at hn' hacc' hd'
  rcases hacc' with ⟨hp, _⟩ | ⟨_, rfl⟩
  · exact absurd hp hne
  · unfold build_nfa at hb
    rw [hloop] at hb
    cases hb
    exact ⟨hn', rfl, fun q => rfl, hd'⟩

theorem mem_chainSet {k i s : Nat} :
    s ∈ chainSet k i ↔
      ((i = 0 ∧ s = 0) ∨ (i ≠ 0 ∧ i < k ∧ (s = 2 * i - 1 ∨ s = 2 * i)) ∨
        (i ≠ 0 ∧ k ≤ i ∧ s = 2 * k - 1)) := by
  unfold chainSet
  split
  · rename_i h
    subst h
    simp
  · rename_i h
    split
    · rename_i h2
      simp [h, h2, Nat.not_le_of_gt h2]
    · rename_i h2
      simp [h, h2, Nat.le_of_not_lt h2]

theorem chain_match {p : List Char} {a : RegexFSM}
    (hall : ∀ c ∈ p, isAtomChar c = true) (hne : p ≠ [])
    (hb : build_nfa p = .ok a) :
    ∀ s, check_string a s = true ↔
      (s.length = p.length ∧
        ∀ i < p.length, p.getD i ' ' = '.' ∨ s.getD i ' ' = p.getD i ' ') := by
  obtain ⟨hn, hstart, hfin, hdelta⟩ := chain_build hall hne hb
  unfold ChainDelta at hdelta
  have hk : 1 ≤ p.length := List.length_pos.mpr hne
  have haccept : ∀ S : Finset Nat,
      (∃ q ∈ S, a.is_final q = true) ↔ (2 * p.length - 1) ∈ S := by
    intro S
    constructor
    · rintro ⟨q, hq, hf⟩
      rw [hfin] at hf
      simp only [beq_iff_eq] at hf
      subst hf
      exact hq
    · intro hmem
      exact ⟨2 * p.length - 1, hmem, by simp [hfin]⟩
  have hstep : ∀ (c : Char) (i : Nat), i < p.length →
      stepChar a c (chainSet p.length i) =
        (if p.getD i ' ' = '.' ∨ c = p.getD i ' '
          then ({2 * i + 1} : Finset Nat) else ∅) := by
    intro c i hik
    have hmem : ∀ q, q ∈ stepChar a c (chainSet p.length i) ↔
        ((p.getD i ' ' = '.' ∨ c = p.getD i ' ') ∧ q = 2 * i + 1) := by
      intro q
      rw [mem_stepChar]
      constructor
      · rintro ⟨s, hs, hq | hq⟩ <;> rw [hdelta] at hq <;>
          rcases hq with ⟨i', hi', hs', hk', ht'⟩ | ⟨i', hi', hs', hk', ht'⟩ <;>
          rw [mem_chainSet] at hs
        · have : i' = i := by omega
          subst this
          exact ⟨Or.inr (Option.some.inj hk'), ht'⟩
        · exact Option.noConfusion hk'
        · have : i' = i := by omega
          subst this
          exact ⟨Or.inl (Option.some.inj hk').symm, ht'⟩
        · exact Option.noConfusion hk'
      · rintro ⟨hm, rfl⟩
        refine ⟨2 * i, ?_, ?_⟩
        · rw [mem_chainSet]
          omega
        · rcases hm with hm | hm
          · refine Or.inr ?_
            rw [hdelta]
            exact Or.inl ⟨i, hik, rfl, by rw [hm], rfl⟩
          · refine Or.inl ?_
            rw [hdelta]
            exact Or.inl ⟨i, hik, rfl, by rw [hm], rfl⟩
    by_cases hm : p.getD i ' ' = '.' ∨ c = p.getD i ' '
    · rw [if_pos hm]
      ext q
      rw [hmem]
      simp only [Finset.mem_singleton]
      exact ⟨fun h => h.2, fun h => ⟨hm, h⟩⟩
    · rw [if_neg hm]
      ext q
      rw [hmem]
      simp only [Finset.not_mem_empty, iff_false]
      exact fun h => hm h.1
  have hstepk : ∀ c, stepChar a c (chainSet p.length p.length) = ∅ := by
    intro c
    ext q
    rw [mem_stepChar]
    simp only [Finset.not_mem_empty, iff_false]
    rintro ⟨s, hs, hq | hq⟩ <;> rw [hdelta] at hq <;>
      rcases hq with ⟨i', hi', hs', hk', ht'⟩ | ⟨i', hi', hs', hk', ht'⟩ <;>
      rw [mem_chainSet] at hs <;>
      first
        | exact Option.noConfusion hk'
        | omega
  have hc0 : epsilon_closure a ({0} : Finset Nat) = chainSet p.length 0 := by
    have hfix : epsStep a ({0} : Finset Nat) = {0} := by
      ext q
      rw [mem_epsStep]
      simp only [Finset.mem_singleton]
      constructor
      · rintro (rfl | ⟨s, hs, hq⟩)
        · rfl
        · subst hs
          rw [hdelta] at hq
          rcases hq with ⟨i', hi', hs', hk', ht'⟩ | ⟨i', hi', hs', hk', ht'⟩
          · exact Option.noConfusion hk'
          · omega
      · rintro rfl
        exact Or.inl rfl
    rw [epsilon_closure_eq_of_fixed hfix]
    unfold chainSet
    simp
  have hcc : ∀ i, i < p.length →
      epsilon_closure a ({2 * i + 1} : Finset Nat) =
        chainSet p.length (i + 1) := by
    intro i hik
    rcases Nat.lt_or_ge (i + 1) p.length with hlt | hge
    · have h1 : epsStep a ({2 * i + 1} : Finset Nat) =
          {2 * i + 1, 2 * i + 2} := by
        ext q
        rw [mem_epsStep]
        simp only [Finset.mem_singleton, Finset.mem_insert]
        constructor
        · rintro (rfl | ⟨s, hs, hq⟩)
          · exact Or.inl rfl
          · subst hs
            rw [hdelta] at hq
            rcases hq with ⟨i', hi', hs', hk', ht'⟩ | ⟨i', hi', hs', hk', ht'⟩
            · exact Option.noConfusion hk'
            · omega
        · rintro (rfl | rfl)
          · exact Or.inl rfl
          · refine Or.inr ⟨2 * i + 1, rfl, ?_⟩
            rw [hdelta]
            exact Or.inr ⟨i, hlt, rfl, rfl, rfl⟩
      have h2 : epsStep a ({2 * i + 1, 2 * i + 2} : Finset Nat) =
          {2 * i + 1, 2 * i + 2} := by
        ext q
        rw [mem_epsStep]
        simp only [Finset.mem_insert, Finset.mem_singleton]
        constructor
        · rintro (h | ⟨s, hs, hq⟩)
          · exact h
          · rcases hs with rfl | rfl <;> rw [hdelta] at hq <;>
              rcases hq with ⟨i', hi', hs', hk', ht'⟩ | ⟨i', hi', hs', hk', ht'⟩ <;>
              first
                | exact Option.noConfusion hk'
                | omega
        · intro h
          exact Or.inl h
      have hfix : epsStep a (epsStep a ({2 * i + 1} : Finset Nat)) =
          epsStep a {2 * i + 1} := by
        rw [h1]
        exact h2
      rw [epsilon_closure_eq_step (by omega) hfix, h1]
      unfold chainSet
      rw [if_neg (by omega), if_pos hlt]
      have e1 : 2 * (i + 1) - 1 = 2 * i + 1 := by omega
      have e2 : 2 * (i + 1) = 2 * i + 2 := by omega
      rw [e1, e2]
    · have hik1 : i + 1 = p.length := by omega
      have hfix : epsStep a ({2 * i + 1} : Finset Nat) = {2 * i + 1} := by
        ext q
        rw [mem_epsStep]
        simp only [Finset.mem_singleton]
        constructor
        · rintro (rfl | ⟨s, hs, hq⟩)
          · rfl
          · subst hs
            rw [hdelta] at hq
            rcases hq with ⟨i', hi', hs', hk', ht'⟩ | ⟨i', hi', hs', hk', ht'⟩
            · exact Option.noConfusion hk'
            · omega
        · rintro rfl
          exact Or.inl rfl
      rw [epsilon_closure_eq_of_fixed hfix]
      unfold chainSet
      rw [if_neg (by omega), if_neg (by omega)]
      have e1 : 2 * p.length - 1 = 2 * i + 1 := by omega
      rw [e1]
  have run : ∀ (rest : List Char) (i : Nat), i ≤ p.length →
      ((∃ q ∈ rest.foldl
          (fun cur c => epsilon_closure a (stepChar a c cur))
          (chainSet p.length i), a.is_final q = true) ↔
        (rest.length = p.length - i ∧
          ∀ m < rest.length,
            p.getD (i + m) ' ' = '.' ∨ rest.getD m ' ' = p.getD (i + m) ' ')) := by
    intro rest
    induction rest with
    | nil =>
      intro i hik
      simp only [List.foldl_nil, haccept, List.length_nil]
      rw [mem_chainSet]
      constructor
      · intro h
        refine ⟨by omega, ?_⟩
        intro m hm
        exact absurd hm (by omega)
      · rintro ⟨h, _⟩
        omega
    | cons c rest ih =>
      intro i hik
      simp only [List.foldl_cons]
      rcases Nat.lt_or_ge i p.length with hilt | hige
      · rw [hstep c i hilt]
        by_cases hm : p.getD i ' ' = '.' ∨ c = p.getD i ' '
        · rw [if_pos hm, hcc i hilt, ih (i + 1) (by omega)]
          constructor
          · rintro ⟨hlen, hmatch⟩
            refine ⟨by simp; omega, ?_⟩
            intro m hmlt
            cases m with
            | zero =>
              simpa using hm
            | succ m' =>
              have := hmatch m' (by simp at hmlt; omega)
              have e1 : i + (m' + 1) = i + 1 + m' := by omega
              rw [e1]
              simpa using this
          · rintro ⟨hlen, hmatch⟩
            refine ⟨by simp at hlen; omega, ?_⟩
            intro m hmlt
            have := hmatch (m + 1) (by simp; omega)
            have e1 : i + 1 + m = i + (m + 1) := by omega
            rw [e1]
            simpa using this
        · rw [if_neg hm, epsilon_closure_empty, foldl_step_empty]
          constructor
          · rintro ⟨q, hq, _⟩
            exact absurd hq (Finset.not_mem_empty q)
          · rintro ⟨hlen, hmatch⟩
            have := hmatch 0 (by simp)
            simp only [Nat.add_zero, List.getD_cons_zero] at this
            exact absurd this (by tauto)
      · have hik2 : i = p.length := by omega
        subst hik2
        rw [hstepk c, epsilon_closure_empty, foldl_step_empty]
        constructor
        · rintro ⟨q, hq, _⟩
          exact absurd hq (Finset.not_mem_empty q)
        · rintro ⟨hlen, _⟩
          simp only [List.length_cons] at hlen
          omega
  intro s
  unfold check_string
  dsimp only
  rw [decide_eq_true_iff, hstart, hc0, run s 0 (by omega)]
  constructor
  · rintro ⟨hlen, hmatch⟩
    refine ⟨by omega, ?_⟩
    intro i hilt
    have := hmatch i (by omega)
    simpa using this
  · rintro ⟨hlen, hmatch⟩
    refine ⟨by omega, ?_⟩
    intro m hmlt
    have := hmatch m (by omega)
    simpa using this

theorem chain_match_nil {a : RegexFSM} (hb : build_nfa [] = .ok a) :
    ∀ s, check_string a s = true ↔ s = [] := by
  have he : build_nfa [] =
      .ok (⟨1, fun _ _ => [], 0, fun q => q == 0⟩ : RegexFSM) := rfl
  rw [he] at hb
  have ha := Except.ok.inj hb
  subst ha
  intro s
  cases s with
  | nil =>
    exact ⟨fun _ => rfl, fun _ => by decide⟩
  | cons c s =>
    set a : RegexFSM := ⟨1, fun _ _ => [], 0, fun q => q == 0⟩ with hadef
    have hsc : ∀ (ch : Char) (S : Finset Nat), stepChar a ch S = ∅ := by
      intro ch S
      ext q
      rw [mem_stepChar]
      simp [hadef]
    have hfalse : check_string a (c :: s) = false := by
      unfold check_string
      dsimp only
      rw [List.foldl_cons, hsc, epsilon_closure_empty, foldl_step_empty]
      simp
    rw [hfalse]
    simp

/-- Claim C1: for an atom-only pattern (alphanumeric literals and the
wildcard `.`, no repetition operators), `check_string` accepts a string
exactly when it has the pattern's length and agrees with the pattern
position by position, wildcard positions matching any one character; the
empty pattern accepts only the empty string. -/
theorem C1_literal_atoms {p : List Char} {a : RegexFSM}
    (hall : ∀ c ∈ p, isAtomChar c = true) (hb : build_nfa p = .ok a) :
    ∀ s, check_string a s = true ↔
      (s.length = p.length ∧
        ∀ i < p.length, p.getD i ' ' = '.' ∨ s.getD i ' ' = p.getD i ' ') := by
  rcases eq_or_ne p [] with rfl | hne
  · intro s
    rw [chain_match_nil hb s]
    constructor
    · rintro rfl
      exact ⟨rfl, by simp⟩
    · rintro ⟨hlen, _⟩
      exact List.length_eq_zero.mp (by simpa using hlen)
  · exact chain_match hall hne hb

/-- Witness for C1 at the wildcard pattern `.` and the input `x`. -/
theorem C1_witness :
    ((∀ c ∈ ['.'], isAtomChar c = true) ∧
        build_nfa ['.'] = .ok (fsm_of ['.'])) ∧
      (check_string (fsm_of ['.']) ['x'] = true ↔
        ((['x'] : List Char).length = (['.'] : List Char).length ∧
          ∀ i < (['.'] : List Char).length,
            (['.'] : List Char).getD i ' ' = '.' ∨
              (['x'] : List Char).getD i ' ' = (['.'] : List Char).getD i ' ')) :=
  ⟨⟨by decide, by rfl⟩,
    C1_literal_atoms (p := ['.']) (a := fsm_of ['.'])
      (by decide) (by rfl) ['x']⟩

/-!  The scan's error behaviour versus the leftmost violating position. -/

theorem opChar_iff {c : Char} : opChar c = true ↔ (c = '*' ∨ c = '+') := by
  simp [opChar]

theorem atom_opChar {c : Char} (h : isAtomChar c = true) : opChar c = false := by
  cases hop : opChar c
  · rfl
  · exact absurd (opChar_iff.mp hop) (atom_not_op h)

theorem not_op_opChar {c : Char} (h : ¬(c = '*' ∨ c = '+')) :
    opChar c = false := by
  cases hop : opChar c
  · rfl
  · exact absurd (opChar_iff.mp hop) h

theorem op_not_atom {c : Char} (h : opChar c = true) : isAtomChar c = false := by
  rcases opChar_iff.mp h with rfl | rfl <;> decide

theorem violationAt_zero_op {c : Char} {cs : List Char} (h : opChar c = true) :
    violationAt (c :: cs) 0 = true := by
  unfold violationAt
  simp [h]

theorem violationAt_zero_other {c : Char} {cs : List Char}
    (h : opChar c = false) : violationAt (c :: cs) 0 = !isAtomChar c := by
  unfold violationAt
  simp [h]

theorem firstViolation_nil : firstViolation [] = none := rfl

theorem firstViolation_zero_some {c : Char} {cs : List Char}
    (h : violationAt (c :: cs) 0 = true) :
    firstViolation (c :: cs) = some 0 := by
  unfold firstViolation
  rw [show (c :: cs).length = cs.length + 1 from rfl, List.range_succ_eq_map,
    List.find?_cons_of_pos _ h]

theorem firstViolation_cons_shift {c : Char} {cs : List Char}
    (h0 : violationAt (c :: cs) 0 = false)
    (hsh : ∀ i, violationAt (c :: cs) (i + 1) = violationAt cs i) :
    firstViolation (c :: cs) = Option.map Nat.succ (firstViolation cs) := by
  unfold firstViolation
  rw [show (c :: cs).length = cs.length + 1 from rfl, List.range_succ_eq_map,
    List.find?_cons_of_neg _ (by simp [h0]), List.find?_map]
  have hfun : violationAt (c :: cs) ∘ Nat.succ = violationAt cs := by
    funext i
    exact hsh i
  rw [hfun]

theorem firstViolation_cons2_shift {c r : Char} {cs : List Char}
    (h0 : violationAt (c :: r :: cs) 0 = false)
    (h1 : violationAt (c :: r :: cs) 1 = false)
    (hsh : ∀ i, violationAt (c :: r :: cs) (i + 2) = violationAt cs i) :
    firstViolation (c :: r :: cs) =
      Option.map (Nat.succ ∘ Nat.succ) (firstViolation cs) := by
  unfold firstViolation
  rw [show (c :: r :: cs).length = cs.length + 1 + 1 from rfl,
    List.range_succ_eq_map, List.find?_cons_of_neg _ (by simp [h0]),
    List.find?_map, List.range_succ_eq_map,
    List.find?_cons_of_neg _ (by simpa using h1), List.find?_map,
    Option.map_map]
  have hfun : (violationAt (c :: r :: cs) ∘ Nat.succ) ∘ Nat.succ =
      violationAt cs := by
    funext i
    exact hsh i
  rw [hfun]

theorem violationAt_shift1 {c : Char} {cs : List Char}
    (hcs : ∀ r cs', cs = r :: cs' → opChar r = false) :
    ∀ i, violationAt (c :: cs) (i + 1) = violationAt cs i := by
  intro i
  cases i with
  | zero =>
    cases cs with
    | nil => rfl
    | cons r cs' =>
      have hr := hcs r cs' rfl
      show violationAt (c :: r :: cs') 1 = violationAt (r :: cs') 0
      unfold violationAt
      simp [hr]
  | succ j =>
    show violationAt (c :: cs) (j + 2) = violationAt cs (j + 1)
    unfold violationAt
    simp

theorem violationAt_shift2 {c r : Char} {cs' : List Char}
    (hc : isAtomChar c = true) (hr : opChar r = true) :
    violationAt (c :: r :: cs') 0 = false ∧
      violationAt (c :: r :: cs') 1 = false ∧
      ∀ i, violationAt (c :: r :: cs') (i + 2) = violationAt cs' i := by
  have hra : isAtomChar r = false := op_not_atom hr
  refine ⟨?_, ?_, ?_⟩
  · rw [violationAt_zero_other (atom_opChar hc), hc]
    rfl
  · show violationAt (c :: r :: cs') 1 = false
    unfold violationAt
    simp [hr, hc]
  · intro i
    cases i with
    | zero =>
      show violationAt (c :: r :: cs') 2 = violationAt cs' 0
      unfold violationAt
      by_cases hop : opChar (cs'.getD 0 ' ') = true <;> simp [hop, hra]
    | succ j =>
      show violationAt (c :: r :: cs') (j + 3) = violationAt cs' (j + 1)
      unfold violationAt
      simp

theorem scanErr_spec (cs : List Char) :
    (firstViolation cs = none → scanErr cs = none) ∧
      (∀ i, firstViolation cs = some i →
        scanErr cs = some (if opChar (cs.getD i ' ') = true
          then RegexError.malformedPattern (cs.getD i ' ')
          else RegexError.unsupportedSymbol (cs.getD i ' '))) := by
  induction cs using scanErr.induct with
  | case1 =>
    refine ⟨fun _ => rfl, fun i hi => ?_⟩
    rw [firstViolation_nil] at hi
    cases hi
  | case2 c rest hop =>
    have hopc : opChar c = true := opChar_iff.mpr hop
    have hfv : firstViolation (c :: rest) = some 0 :=
      firstViolation_zero_some (violationAt_zero_op hopc)
    have hscan : scanErr (c :: rest) = some (.malformedPattern c) := by
      rw [scanErr.eq_def]
      simp [hop]
    constructor
    · intro h
      rw [hfv] at h
      cases h
    · intro i hi
      rw [hfv] at hi
      obtain rfl : (0 : Nat) = i := Option.some.inj hi
      rw [hscan]
      simp [hopc]
  | case3 c hop hat r rest' hrop ih =>
    have hropc : opChar r = true := opChar_iff.mpr hrop
    obtain ⟨h0, h1, hsh⟩ := @violationAt_shift2 c r rest' hat hropc
    have hfv := firstViolation_cons2_shift h0 h1 hsh
    have hscan : scanErr (c :: r :: rest') = scanErr rest' := by
      rw [scanErr, if_neg hop, if_pos hat, if_pos hrop]
    constructor
    · intro h
      rw [hfv] at h
      rcases hfr : firstViolation rest' with _ | j
      · rw [hscan]
        exact ih.1 hfr
      · rw [hfr] at h
        cases h
    · intro i hi
      rw [hfv] at hi
      rcases hfr : firstViolation rest' with _ | j
      · rw [hfr] at hi
        cases hi
      · rw [hfr] at hi
        obtain rfl : (Nat.succ ∘ Nat.succ) j = i := Option.some.inj hi
        rw [hscan, ih.2 j hfr]
        rfl
  | case4 c hop hat r rest' hrop ih =>
    have hr0 : opChar r = false := not_op_opChar hrop
    have h0 : violationAt (c :: r :: rest') 0 = false := by
      rw [violationAt_zero_other (atom_opChar hat), hat]
      rfl
    have hsh := @violationAt_shift1 c (r :: rest')
      (fun r' cs' he => by cases he; exact hr0)
    have hfv := firstViolation_cons_shift h0 hsh
    have hscan : scanErr (c :: r :: rest') = scanErr (r :: rest') := by
      rw [scanErr, if_neg hop, if_pos hat, if_neg hrop]
    constructor
    · intro h
      rw [hfv] at h
      rcases hfr : firstViolation (r :: rest') with _ | j
      · rw [hscan]
        exact ih.1 hfr
      · rw [hfr] at h
        cases h
    · intro i hi
      rw [hfv] at hi
      rcases hfr : firstViolation (r :: rest') with _ | j
      · rw [hfr] at hi
        cases hi
      · rw [hfr] at hi
        obtain rfl : Nat.succ j = i := Option.some.inj hi
        rw [hscan, ih.2 j hfr]
        rfl
  | case5 c hop hat =>
    have h0 : violationAt (c :: ([] : List Char)) 0 = false := by
      rw [violationAt_zero_other (atom_opChar hat), hat]
      rfl
    have hsh := @violationAt_shift1 c ([] : List Char)
      (fun r' cs' he => by cases he)
    have hfv := firstViolation_cons_shift h0 hsh
    rw [firstViolation_nil] at hfv
    have hscan : scanErr [c] = none := by
      rw [scanErr, if_neg hop, if_pos hat]
    constructor
    · intro _
      exact hscan
    · intro i hi
      rw [hfv] at hi
      cases hi
  | case6 c rest hop hat =>
    have hca : isAtomChar c = false := by
      cases hx : isAtomChar c
      · rfl
      · exact absurd hx hat
    have h0 : violationAt (c :: rest) 0 = true := by
      rw [violationAt_zero_other (not_op_opChar hop), hca]
      rfl
    have hfv : firstViolation (c :: rest) = some 0 :=
      firstViolation_zero_some h0
    have hscan : scanErr (c :: rest) = some (.unsupportedSymbol c) := by
      rw [scanErr.eq_def]
      simp [hop, hat]
    constructor
    · intro h
      rw [hfv] at h
      cases h
    · intro i hi
      rw [hfv] at hi
      obtain rfl : (0 : Nat) = i := Option.some.inj hi
      rw [hscan]
      simp [not_op_opChar hop]

theorem build_nfa_loop_scanErr (cs : List Char) :
    ∀ (b : NFABuilder) (acc : Option NFAFragment),
      (∀ e, build_nfa_loop b acc cs = .error e ↔ scanErr cs = some e) ∧
      (scanErr cs = none → ∃ r, build_nfa_loop b acc cs = .ok r) := by
  induction cs using scanErr.induct with
  | case1 =>
    intro b acc
    constructor
    · intro e
      constructor
      · intro h
        rw [build_nfa_loop] at h
        cases h
      · intro h
        exact Option.noConfusion h
    · intro _
      exact ⟨(b, acc), rfl⟩
  | case2 c rest hop =>
    intro b acc
    have hl : build_nfa_loop b acc (c :: rest) =
        .error (.malformedPattern c) := by
      rw [build_nfa_loop.eq_def]
      simp [hop]
    have hs : scanErr (c :: rest) = some (.malformedPattern c) := by
      rw [scanErr.eq_def]
      simp [hop]
    constructor
    · intro e
      rw [hl, hs]
      constructor
      · intro h
        rw [Except.error.inj h]
      · intro h
        rw [Option.some.inj h]
    · intro h
      rw [hs] at h
      cases h
  | case3 c hop hat r rest' hrop ih =>
    intro b acc
    have hl : build_nfa_loop b acc (c :: r :: rest') =
        build_nfa_loop (consume_atom b acc c (some r)).1
          (consume_atom b acc c (some r)).2 rest' := by
      rw [build_nfa_loop, if_neg hop, if_pos hat, if_pos hrop]
    have hs : scanErr (c :: r :: rest') = scanErr rest' := by
      rw [scanErr, if_neg hop, if_pos hat, if_pos hrop]
    rw [hl, hs]
    exact ih _ _
  | case4 c hop hat r rest' hrop ih =>
    intro b acc
    have hl := @build_nfa_loop_atom_step b acc c (r :: rest') hat
      (fun r' cs' he => by
        injection he with e1 e2
        rw [← e1]
        exact hrop)
    have hs : scanErr (c :: r :: rest') = scanErr (r :: rest') := by
      rw [scanErr, if_neg hop, if_pos hat, if_neg hrop]
    rw [hl, hs]
    exact ih _ _
  | case5 c hop hat =>
    intro b acc
    have hl := @build_nfa_loop_atom_step b acc c [] hat
      (fun r' cs' he => by cases he)
    have hs : scanErr [c] = none := by
      rw [scanErr, if_neg hop, if_pos hat]
    rw [hl, hs]
    constructor
    · intro e
      constructor
      · intro h
        rw [build_nfa_loop] at h
        cases h
      · intro h
        exact Option.noConfusion h
    · intro _
      exact ⟨_, rfl⟩
  | case6 c rest hop hat =>
    intro b acc
    have hl : build_nfa_loop b acc (c :: rest) =
        .error (.unsupportedSymbol c) := by
      rw [build_nfa_loop.eq_def]
      simp [hop, hat]
    have hs : scanErr (c :: rest) = some (.unsupportedSymbol c) := by
      rw [scanErr.eq_def]
      simp [hop, hat]
    constructor
    · intro e
      rw [hl, hs]
      constructor
      · intro h
        rw [Except.error.inj h]
      · intro h
        rw [Option.some.inj h]
    · intro h
      rw [hs] at h
      cases h

theorem build_nfa_error_of_scanErr {p : List Char} {e : RegexError}
    (h : scanErr p = some e) : build_nfa p = .error e := by
  obtain ⟨h1, _⟩ := build_nfa_loop_scanErr p ⟨0, fun _ _ => []⟩ none
  have hl := (h1 e).mpr h
  unfold build_nfa
  rw [hl]

theorem build_nfa_ok_of_scanErr_none {p : List Char}
    (h : scanErr p = none) : ∃ a, build_nfa p = .ok a := by
  obtain ⟨_, h2⟩ := build_nfa_loop_scanErr p ⟨0, fun _ _ => []⟩ none
  obtain ⟨r, hr⟩ := h2 h
  unfold build_nfa
  rw [hr]
  rcases r with ⟨b, _ | base⟩
  · exact ⟨_, rfl⟩
  · exact ⟨_, rfl⟩

/-- Counterexample to claim C5 as stated: the pattern `*#` contains the
character `#`, which is neither alphanumeric, nor the wildcard, nor an
operator, yet compilation fails with the malformed-pattern error (raised
for the leading `*`), not with the unsupported-symbol error. -/
theorem C5_counterexample :
    ('#' ∈ ['*', '#'] ∧ isAtomChar '#' = false ∧ opChar '#' = false) ∧
      build_nfa ['*', '#'] = .error (.malformedPattern '*') ∧
      build_nfa ['*', '#'] ≠ .error (.unsupportedSymbol '#') := by
  refine ⟨by decide, rfl, ?_⟩
  intro h
  rw [show build_nfa ['*', '#'] = .error (.malformedPattern '*') from rfl] at h
  simp at h

/-- Claim C5 (amended): compilation is characterised by the leftmost
violating position of the pattern.  When no position violates the syntax,
compilation succeeds; when the leftmost violating position holds a
repetition operator (an operator at position 0 or directly after a
non-atom), compilation fails with the malformed-pattern error for that
character; when it holds a character that is neither an atom nor an
operator, compilation fails with the unsupported-symbol error for that
character; and the two error kinds are distinguishable. -/
theorem C5_compile_errors (p : List Char) :
    (firstViolation p = none → ∃ a, build_nfa p = .ok a) ∧
      (∀ a, build_nfa p = .ok a → firstViolation p = none) ∧
      (∀ i, firstViolation p = some i → opChar (p.getD i ' ') = true →
        build_nfa p = .error (.malformedPattern (p.getD i ' '))) ∧
      (∀ i, firstViolation p = some i → opChar (p.getD i ' ') = false →
        build_nfa p = .error (.unsupportedSymbol (p.getD i ' '))) ∧
      (∀ c c', RegexError.malformedPattern c ≠ RegexError.unsupportedSymbol c') := by
  have hmal : ∀ i, firstViolation p = some i → opChar (p.getD i ' ') = true →
      build_nfa p = .error (.malformedPattern (p.getD i ' ')) := by
    intro i hi hop
    refine build_nfa_error_of_scanErr ?_
    rw [(scanErr_spec p).2 i hi, if_pos hop]
  have huns : ∀ i, firstViolation p = some i → opChar (p.getD i ' ') = false →
      build_nfa p = .error (.unsupportedSymbol (p.getD i ' ')) := by
    intro i hi hop
    refine build_nfa_error_of_scanErr ?_
    rw [(scanErr_spec p).2 i hi, if_neg (by rw [hop]; exact Bool.false_ne_true)]
  refine ⟨?_, ?_, hmal, huns, ?_⟩
  · intro h
    exact build_nfa_ok_of_scanErr_none ((scanErr_spec p).1 h)
  · intro a ha
    rcases hfv : firstViolation p with _ | i
    · rfl
    · exfalso
      cases hop : opChar (p.getD i ' ')
      · have := huns i hfv hop
        rw [ha] at this
        cases this
      · have := hmal i hfv hop
        rw [ha] at this
        cases this
  · intro c c' h
    cases h

/-- Witness for the amended C5 at the pattern `a#`, whose leftmost (and
only) violating position holds the unsupported character `#`. -/
theorem C5_witness :
    (firstViolation ['a', '#'] = some 1 ∧ opChar '#' = false) ∧
      build_nfa ['a', '#'] = .error (.unsupportedSymbol '#') :=
  ⟨⟨by decide, by decide⟩,
    (C5_compile_errors ['a', '#']).2.2.2.1 1 (by decide) (by decide)⟩
